import Mathlib

/-!
# Verification of the IndexHierarchy core of static-frame

Shallow embedding of `src/static_frame/core/index_hierarchy.py`:
the tree-of-levels data model (`IndexLevel`), the flat-label tree builder
used by `from_labels` and `_from_type_blocks`, the lazily rebuilt flat
cache, and the derived operations `sort`, `isin`, `roll`, `add_level`,
`drop_level`.

Labels are modelled by an arbitrary type with decidable equality.  The
external single-depth `Index` collaborator is modelled at its interface
boundary as an ordered, duplicate-free list of labels (its construction
rejects duplicate labels, per the spec's "ordered, duplicate-free mapping
from label to local position").  NumPy and `TypeBlocks` helpers
(`np.lexsort`, `_shift_blocks`) are modelled from their documented
semantics where noted in doc comments.
-/

set_option linter.unusedSectionVars false

namespace StaticFrame

variable {β : Type}

/-- The nested ordered-dictionary structure built by
`IndexHierarchy.from_labels` / `_from_type_blocks` before conversion to
`IndexLevel`s: intermediate depths are insertion-ordered dictionaries
(association lists whose keys are unique by construction), the final
depth is a plain list of leaf labels. -/
inductive PTree (β : Type) : Type where
  | lvs : List β → PTree β
  | br : List (β × PTree β) → PTree β

/-- One node of the hierarchy tree (`IndexLevel`): its local label index
and, for non-leaf nodes, one child level per label.  The source stores
`index` and `targets` as two parallel sequences plus a derived integer
`offset`; we pair each label with its child, and omit the offsets, which
are running totals of sibling sizes and do not affect the label rows. -/
inductive Level (β : Type) : Type where
  | leaf : List β → Level β
  | node : List (β × Level β) → Level β

/-- Errors raised during hierarchy construction and reshaping
(`ErrorInitIndex` and kin in the source, distinguished here by the point
of detection). -/
inductive BuildErr (β : Type) : Type where
  /-- Adjacency violation: `offending` has already been defined at
  `depth` but does not equal the label observed last at that depth
  (`expected`; `none` is the never-matched initial token). -/
  | adjacency (offending : β) (expected : Option β) (depth : Nat)
  /-- A label tuple is longer than the depth fixed by the first tuple. -/
  | exceeded (offending : β)
  /-- Depth below 2: cannot create an IndexHierarchy from only one level. -/
  | tooShallow
  /-- Number of supplied index constructors differs from the depth. -/
  | ctorCount
  /-- IndexError from indexing the per-depth constructor sequence. -/
  | ctorIndex (depth : Nat)
  /-- The single-depth index collaborator rejected duplicate labels. -/
  | dupLabels
  /-- continuation_token not supported when reorder_for_hierarchy. -/
  | reorderContinuation
  /-- NotImplementedError: no handling for a 0 count drop level. -/
  | zeroDrop
deriving DecidableEq

theorem sizeOf_snd_lt {γ : Type} [SizeOf γ] {p : β × γ} {cs : List (β × γ)}
    (h : p ∈ cs) : sizeOf p.2 < 1 + sizeOf cs := by
  have h1 : sizeOf p < sizeOf cs := List.sizeOf_lt_of_mem h
  have h2 : sizeOf p.2 < sizeOf p := by
    obtain ⟨a, b⟩ := p
    simp only [Prod.mk.sizeOf_spec]
    omega
  omega

namespace PTree

mutual

/-- Flattened label rows of a builder tree, leaf order. -/
def rows : PTree β → List (List β)
  | .lvs ls => ls.map fun a => [a]
  | .br cs => rowsL cs

/-- Rows contributed by a list of keyed children, in order. -/
def rowsL : List (β × PTree β) → List (List β)
  | [] => []
  | (k, c) :: rest => (rows c).map (k :: ·) ++ rowsL rest

end

@[simp] theorem rows_lvs (ls : List β) : (PTree.lvs ls).rows = ls.map (fun a => [a]) := by
  rw [rows]

theorem rowsL_eq (cs : List (β × PTree β)) :
    rowsL cs = cs.flatMap (fun p => p.2.rows.map (p.1 :: ·)) := by
  induction cs with
  | nil => rfl
  | cons c rest ih => obtain ⟨k, t⟩ := c; simp [rowsL, ih]

@[simp] theorem rows_br (cs : List (β × PTree β)) :
    (PTree.br cs).rows = cs.flatMap (fun p => p.2.rows.map (p.1 :: ·)) := by
  rw [rows, rowsL_eq]

/-- Strong induction principle for the nested inductive. -/
def indOn {motive : PTree β → Prop} (t : PTree β)
    (hl : ∀ ls, motive (.lvs ls))
    (hb : ∀ cs, (∀ p ∈ cs, motive p.2) → motive (.br cs)) : motive t :=
  match t with
  | .lvs ls => hl ls
  | .br cs => hb cs (fun p hp => indOn p.2 hl hb)
termination_by sizeOf t
decreasing_by
  simp only [PTree.br.sizeOf_spec]
  exact sizeOf_snd_lt hp

end PTree

namespace Level

mutual

/-- Flattened label rows of a level tree: the depth-first traversal
emitting each leaf's full label tuple in row order, i.e. the columnar
materialization performed by `IndexLevel.to_type_blocks`. -/
def rows : Level β → List (List β)
  | .leaf ls => ls.map fun a => [a]
  | .node cs => rowsL cs

/-- Rows contributed by a list of keyed child levels, in order. -/
def rowsL : List (β × Level β) → List (List β)
  | [] => []
  | (k, c) :: rest => (rows c).map (k :: ·) ++ rowsL rest

end

@[simp] theorem rows_leaf (ls : List β) : (Level.leaf ls).rows = ls.map (fun a => [a]) := by
  rw [rows]

theorem rowsL_flatMap (cs : List (β × Level β)) :
    rowsL cs = cs.flatMap (fun p => p.2.rows.map (p.1 :: ·)) := by
  induction cs with
  | nil => rfl
  | cons c rest ih => obtain ⟨k, t⟩ := c; simp [rowsL, ih]

@[simp] theorem rows_node (cs : List (β × Level β)) :
    (Level.node cs).rows = cs.flatMap (fun p => p.2.rows.map (p.1 :: ·)) := by
  rw [rows, rowsL_flatMap]

/-- Height of the level tree = depth of the hierarchy (the source reads
it off the cached blocks' column count; uniform across branches). -/
def height : Level β → Nat
  | .leaf _ => 1
  | .node [] => 1
  | .node (c :: _) => 1 + c.2.height

/-- Strong induction principle for the nested inductive. -/
def indOn {motive : Level β → Prop} (t : Level β)
    (hl : ∀ ls, motive (.leaf ls))
    (hb : ∀ cs, (∀ p ∈ cs, motive p.2) → motive (.node cs)) : motive t :=
  match t with
  | .leaf ls => hl ls
  | .node cs => hb cs (fun p hp => indOn p.2 hl hb)
termination_by sizeOf t
decreasing_by
  simp only [Level.node.sizeOf_spec]
  exact sizeOf_snd_lt hp

/-- Per-depth index constructors recovered from an existing tree
(`IndexLevel.index_types`, an external collaborator of this module):
one constructor per depth, modelled as opaque unit tags since
constructor identity does not affect the labels. -/
def indexTypes (t : Level β) : List Unit := List.replicate t.height ()

end Level

/-! ## The flat-sequence tree builder -/

/-- Lookup in an insertion-ordered dictionary (`v in current` /
`current[v]`). -/
def findChild {σ : Type} [DecidableEq β] (cs : List (β × σ)) (v : β) : Option σ :=
  match cs with
  | [] => none
  | (k, c) :: rest => if k = v then some c else findChild rest v

/-- Replace the value stored under key `v` (in-place dictionary update in
the source; keys are unique by construction). -/
def replaceChild {σ : Type} [DecidableEq β] (cs : List (β × σ)) (v : β) (c' : σ) : List (β × σ) :=
  match cs with
  | [] => []
  | (k, c) :: rest => if k = v then (k, c') :: rest else (k, c) :: replaceChild rest v c'

/-- One row of the tree-building loop of
`IndexHierarchy._from_type_blocks` (the per-row walk over
`blocks.element_items()`, lines 441-470), without the continuation-token
substitution that only `from_labels` performs.  `D` is the depth fixed by
the blocks' column count; `obs` is `observed_last` with `none` as the
never-matched initial token; `d` is the current depth.  Intermediate
depths (`d < D-2`) insert dictionaries, depth `D-2` inserts leaf lists,
depth `D-1` appends to the leaf list, and deeper components raise.  The
two mismatch fallbacks (`.lvs` met at an intermediate depth, `.br` met at
the leaf depth) are unreachable for rectangular input; the source would
fail there with a Python type error. -/
def insertRowCore [DecidableEq β] (D : Nat) :
    PTree β → List β → Nat → List (Option β) →
    Except (BuildErr β) (PTree β × List (Option β))
  | t, [], _, obs => .ok (t, obs)
  | t, v :: rest, d, obs =>
    if d < D - 2 then
      match t with
      | .br cs =>
        match findChild cs v with
        | some c =>
          if obs.getD d none ≠ some v then .error (.adjacency v (obs.getD d none) d)
          else do
            let (c', obs') ← insertRowCore D c rest (d+1) (obs.set d (some v))
            pure (.br (replaceChild cs v c'), obs')
        | none => do
            let (c', obs') ← insertRowCore D (.br []) rest (d+1) (obs.set d (some v))
            pure (.br (cs ++ [(v, c')]), obs')
      | .lvs _ => .error (.adjacency v none d)
    else if d < D - 1 then
      match t with
      | .br cs =>
        match findChild cs v with
        | some c =>
          if obs.getD d none ≠ some v then .error (.adjacency v (obs.getD d none) d)
          else do
            let (c', obs') ← insertRowCore D c rest (d+1) (obs.set d (some v))
            pure (.br (replaceChild cs v c'), obs')
        | none => do
            let (c', obs') ← insertRowCore D (.lvs []) rest (d+1) (obs.set d (some v))
            pure (.br (cs ++ [(v, c')]), obs')
      | .lvs _ => .error (.adjacency v none d)
    else if d = D - 1 then
      match t with
      | .lvs ls => insertRowCore D (.lvs (ls ++ [v])) rest (d+1) obs
      | .br _ => .error (.exceeded v)
    else .error (.exceeded v)

/-- Fold of `insertRowCore` over the rows. -/
def buildGo [DecidableEq β] (D : Nat) :
    PTree β → List (Option β) → List (List β) → Except (BuildErr β) (PTree β)
  | t, _, [] => .ok t
  | t, obs, r :: rs =>
    match insertRowCore D t r 0 obs with
    | .error e => .error e
    | .ok (t', obs') => buildGo D t' obs' rs

/-- The whole tree-building loop of `_from_type_blocks`: empty ordered
dictionary and all-token `observed_last` to start. -/
def buildTreeCore [DecidableEq β] (D : Nat) (rows : List (List β)) : Except (BuildErr β) (PTree β) :=
  buildGo D (.br []) (List.replicate D none) rows

/-! ## Conversion of the builder tree to levels -/

/-- Modelled from the spec: construct-from-labels of the single-depth
`Index` collaborator (external to this module), an ordered,
duplicate-free mapping from label to position; construction of an index
with duplicate labels is rejected (the "redundancies ... caught in index
creation" the source comments rely on). -/
def mkIndex [DecidableEq β] (ls : List β) : Except (BuildErr β) (List β) :=
  if ls.Nodup then .ok ls else .error .dupLabels

/-- The per-depth constructor dispatch of
`IndexHierarchy._tree_to_index_level.get_index`: when an explicit
constructor sequence is given it is indexed at `depth` (an out-of-range
depth raises IndexError, which a zero-length constructor sequence always
does); the constructed index is the ordered duplicate-free label list
either way, constructor identity being external. -/
def getIndex [DecidableEq β] (ics : Option (List Unit)) (ls : List β) (depth : Nat) :
    Except (BuildErr β) (List β) :=
  match ics with
  | none => mkIndex ls
  | some cs => if depth < cs.length then mkIndex ls else .error (.ctorIndex depth)

mutual

/-- `IndexHierarchy._tree_to_index_level.get_level`: recursively convert
the ordered-dictionary tree into levels, children first, then this
node's own index from the ordered keys. -/
def treeToLevel [DecidableEq β] (ics : Option (List Unit)) :
    PTree β → Nat → Except (BuildErr β) (Level β)
  | .lvs ls, depth => do
      let ix ← getIndex ics ls depth
      pure (.leaf ix)
  | .br cs, depth => do
      let children ← treeToLevelL ics cs depth
      let ix ← getIndex ics (cs.map Prod.fst) depth
      pure (.node (ix.zip children))

/-- Children of one dictionary node, converted in insertion order. -/
def treeToLevelL [DecidableEq β] (ics : Option (List Unit)) :
    List (β × PTree β) → Nat → Except (BuildErr β) (List (Level β))
  | [], _ => pure []
  | (_, c) :: rest, depth => do
      let l ← treeToLevel ics c (depth + 1)
      let ls ← treeToLevelL ics rest depth
      pure (l :: ls)

end

/-! ## The hierarchy container and its flat cache -/

/-- The columnar flat cache (`TypeBlocks` at this module's interface
boundary): a column count plus the label rows. -/
structure Blocks (β : Type) : Type where
  width : Nat
  rows : List (List β)
deriving DecidableEq

/-- `IndexLevel.to_type_blocks`: materialize the tree into the columnar
cache. -/
def Level.toBlocks (t : Level β) : Blocks β := ⟨t.height, t.rows⟩

/-- The `IndexHierarchy` container state: the owned root level, the
optional materialized cache, and the cache-validity flag (`_recache` is
true when the cache must be rebuilt before use). -/
structure Hier (β : Type) : Type where
  levels : Level β
  blocks : Option (Blocks β)
  recache : Bool

/-- `IndexHierarchy._update_array_cache`. -/
def updateArrayCache (h : Hier β) : Hier β :=
  ⟨h.levels, some h.levels.toBlocks, false⟩

/-- The `if self._recache: self._update_array_cache()` preamble shared by
all cache-consuming operations. -/
def ensure (h : Hier β) : Hier β :=
  if h.recache then updateArrayCache h else h

/-- The cache as read by an operation after the recache preamble (a
hierarchy with a false flag always owns blocks; the default is never
reached from a constructed hierarchy). -/
def blocksOf (h : Hier β) : Blocks β := (ensure h).blocks.getD ⟨0, []⟩

/-- `IndexHierarchy.__len__`: recaches, then answers from the blocks. -/
def lenOp (h : Hier β) : Nat × Hier β := ((blocksOf h).rows.length, ensure h)

/-- `IndexHierarchy.values` (and `__iter__`): recaches, then answers the
label rows from the blocks. -/
def valuesOp (h : Hier β) : List (List β) × Hier β := ((blocksOf h).rows, ensure h)

/-- `IndexHierarchy.__contains__`: answers directly from `_levels`
("levels only, no need to recache as this is what has been mutated");
leaf-tuple containment is `IndexLevel.__contains__`, an external
collaborator modelled from the spec's containment test as membership of
the full label tuple. -/
def containsOp [DecidableEq β] (h : Hier β) (r : List β) : Bool × Hier β :=
  (decide (r ∈ h.levels.rows), h)

/-- `IndexHierarchy._from_type_blocks`: validate depth and constructor
count, rebuild the level tree from the columnar rows with the same
adjacency validation as `from_labels`, and own the given blocks as the
already-valid cache (`own_blocks=True` callers). -/
def fromTypeBlocks [DecidableEq β] (blocks : Blocks β) (ics : Option (List Unit)) :
    Except (BuildErr β) (Hier β) :=
  if blocks.width < 2 then .error .tooShallow
  else if (match ics with
           | some cs => decide (cs.length ≠ blocks.width)
           | none => false) then .error .ctorCount
  else do
    let t ← buildTreeCore blocks.width blocks.rows
    let lvl ← treeToLevel ics t 0
    pure ⟨lvl, some blocks, false⟩

/-- `IndexHierarchyGO.append` (growable variant): insert one leaf tuple
into the tree directly and invalidate the cache.  The in-place tree
mutation `IndexLevelGO.append` is an external collaborator; modelled from
the spec at its interface boundary as tree growth followed by cache
invalidation, with the grown tree abstracted by its effect parameter. -/
def appendOp (grow : Level β → List β → Level β) (h : Hier β) (r : List β) : Hier β :=
  ⟨grow h.levels r, h.blocks, true⟩

/-! ## sort -/

/-- Lexicographic comparison of equal-length label tuples, first
position primary. -/
def lexLe [LinearOrder β] : List β → List β → Bool
  | [], _ => true
  | _ :: _, [] => false
  | a :: as, b :: bs => if a < b then true else if b < a then false else lexLe as bs

/-- Insert index `i` after every already-placed index whose key is
lexicographically at most `key i` (the stable insertion step). -/
def insOrd [LinearOrder β] (key : Nat → List β) (i : Nat) : List Nat → List Nat
  | [] => [i]
  | j :: rest => if lexLe (key j) (key i) then j :: insOrd key i rest else i :: j :: rest

/-- Stable argsort of `0..n-1` by `key`: indices are inserted in
increasing order, each after all indices with keys at most its own, so
equal keys keep their original relative order. -/
def stableArgsort [LinearOrder β] (key : Nat → List β) (n : Nat) : List Nat :=
  (List.range n).foldl (fun acc i => insOrd key i acc) []

/-- Modelled from numpy's documented semantics: `np.lexsort(keys)`
returns the indices that sort the records stably by the given keys, the
LAST key of the sequence being the primary sort key.  Record `i`'s
composite key is thus the reversed key sequence evaluated at `i`. -/
def npLexsort [LinearOrder β] [Inhabited β] (keys : List (List β)) : List Nat :=
  stableArgsort (fun i => keys.reverse.map (fun col => col.getD i default)) (keys.headD []).length

/-- `IndexHierarchy.sort`: recache, argsort by `np.lexsort` over the
columns taken from the last depth back to the first, reverse the order
for descending, extract the rows in that order, and rebuild a new
hierarchy from the permuted blocks with the original per-depth
constructors. -/
def sortH [LinearOrder β] [Inhabited β] (h : Hier β) (ascending : Bool) :
    Except (BuildErr β) (Hier β) :=
  let h' := ensure h
  let b := h'.blocks.getD ⟨0, []⟩
  let v := b.rows
  let order := npLexsort ((List.range b.width).reverse.map
      (fun i => v.map (fun r => r.getD i default)))
  let order := if ascending then order else order.reverse
  fromTypeBlocks ⟨b.width, order.map (fun i => v.getD i [])⟩ (some h'.levels.indexTypes)

/-! ## roll -/

/-- Modelled from the spec: `TypeBlocks._shift_blocks(row_shift, wrap=True)`
of the external columnar storage collaborator — circular shift of the row
order by a signed offset, wrapping. -/
def shiftRowsWrap (s : Int) (rows : List (List β)) : List (List β) :=
  let n := rows.length
  if n = 0 then rows
  else
    let k := (s % (n : Int)).toNat
    rows.drop (n - k) ++ rows.take (n - k)

/-- `IndexHierarchy.roll`: recache, circularly shift the cached rows, and
rebuild a new hierarchy from the shifted blocks with the original
per-depth constructors. -/
def rollH [DecidableEq β] (h : Hier β) (shift : Int) : Except (BuildErr β) (Hier β) :=
  let h' := ensure h
  let b := h'.blocks.getD ⟨0, []⟩
  fromTypeBlocks ⟨b.width, shiftRowsWrap shift b.rows⟩ (some h'.levels.indexTypes)

/-! ## isin -/

/-- `IndexHierarchy.isin`: keep the candidates whose length equals the
depth, and test each flattened row for membership among them (the
vectorized `isin` utility of the external array module, modelled from the
spec as element-wise membership); with no length-matching candidate the
answer is all-false of the hierarchy's length. -/
def isinOp [DecidableEq β] (h : Hier β) (cands : List (List β)) : List Bool × Hier β :=
  let h' := ensure h
  let b := h'.blocks.getD ⟨0, []⟩
  let matched := cands.filter (fun s => s.length = b.width)
  if matched.isEmpty then (List.replicate b.rows.length false, h')
  else (b.rows.map (fun r => decide (r ∈ matched)), h')

/-! ## add_level and drop_level -/

/-- `IndexHierarchy.add_level`: wrap the existing root under a new
singleton level; the result's cache starts invalid (the plain
`cls(levels, name)` constructor path). -/
def addLevel (h : Hier β) (x : β) : Hier β :=
  ⟨.node [(x, h.levels)], none, true⟩

namespace Level

mutual

/-- One pass of the negative-count loop of `IndexHierarchy.drop_level`:
the explicit stack visits every node; a node whose first child is a leaf
drops its targets (becoming a leaf of its own keys), otherwise its
children are pushed.  A leaf is never pushed by the source (and an empty
target list would raise IndexError there). -/
def dropLeafStep : Level β → Level β
  | .leaf ls => .leaf ls
  | .node [] => .node []
  | .node ((k, c) :: rest) =>
    match c with
    | .leaf _ => .leaf (((k, c) :: rest).map Prod.fst)
    | .node _ => .node (dropLeafStepL ((k, c) :: rest))

/-- The recursive stack walk over a node's children. -/
def dropLeafStepL : List (β × Level β) → List (β × Level β)
  | [] => []
  | (k, c) :: rest => (k, dropLeafStep c) :: dropLeafStepL rest

end

/-- `index` of a level as read by `drop_level`'s positive branch
(`target.index`): the keys for a node, the leaf labels for a leaf. -/
def indexList : Level β → List β
  | .leaf ls => ls
  | .node cs => cs.map Prod.fst

/-- `targets` of a level as read by `drop_level`'s positive branch
(`target.targets`, skipped when `None`). -/
def targetsList : Level β → List (Level β)
  | .leaf _ => []
  | .node cs => cs.map Prod.snd

end Level

/-- The negative-count loop of `drop_level`: up to `k` leaf-dropping
passes, stopping early once the root itself has become a leaf. -/
def dropLeafIter : Nat → Level β → Level β
  | 0, t => t
  | k+1, t =>
    match t.dropLeafStep with
    | .leaf ls => .leaf ls
    | .node cs => dropLeafIter k (.node cs)

/-- The positive-count loop of `drop_level`: each pass concatenates the
children's indices into a new root index (built by the single-depth
index collaborator, which rejects duplicates) and the grandchildren into
the new targets, returning the plain index once no targets remain. -/
def dropTopIter [DecidableEq β] : Nat → Level β → Except (BuildErr β) (List β ⊕ Level β)
  | 0, t => .ok (.inr t)
  | k+1, t => do
    let labels := t.targetsList.flatMap Level.indexList
    let targets := t.targetsList.flatMap Level.targetsList
    let ix ← mkIndex labels
    if targets.isEmpty then .ok (.inl ix)
    else dropTopIter k (.node (ix.zip targets))

/-- `IndexHierarchy.drop_level(count)`: negative count peels with the
leaf-dropping stack walk and falls back to the plain single-depth index
when the root has lost its targets; positive count merges the root's
children level by level, returning a plain index when the merged level
has no targets left; a zero count raises NotImplementedError. -/
def dropLevel [DecidableEq β] (h : Hier β) (count : Int) : Except (BuildErr β) (List β ⊕ Level β) :=
  if count < 0 then
    match dropLeafIter count.natAbs h.levels with
    | .leaf ls => .ok (.inl ls)
    | .node cs => .ok (.inr (.node cs))
  else if 0 < count then dropTopIter count.toNat h.levels
  else .error .zeroDrop

/-! ## from_labels -/

variable {γ : Type} [DecidableEq γ]

/-- One row of the tree-building loop of `IndexHierarchy.from_labels`
(lines 291-322).  Labels live in `Option γ`: `some a` is an ordinary
label, `none` is the per-call fresh `token` object, which doubles as the
initial `observed_last` entry AND as the value a continuation token
substitutes to when nothing has been observed yet at that depth — in the
source these are one and the same Python object, so a single merged
space is the faithful translation.  When the continuation token is
active, a raw component equal to it is replaced by `observed_last[d]`
before any dictionary access. -/
def insertRowFL (D : Nat) (act : Bool) (tok : γ) :
    PTree (Option γ) → List γ → Nat → List (Option γ) →
    Except (BuildErr (Option γ)) (PTree (Option γ) × List (Option γ))
  | t, [], _, obs => .ok (t, obs)
  | t, vRaw :: rest, d, obs =>
    let v : Option γ := if act ∧ vRaw = tok then obs.getD d none else some vRaw
    if d < D - 2 then
      match t with
      | .br cs =>
        match findChild cs v with
        | some c =>
          if v ≠ obs.getD d none then .error (.adjacency v (some (obs.getD d none)) d)
          else do
            let (c', obs') ← insertRowFL D act tok c rest (d+1) (obs.set d v)
            pure (.br (replaceChild cs v c'), obs')
        | none => do
            let (c', obs') ← insertRowFL D act tok (.br []) rest (d+1) (obs.set d v)
            pure (.br (cs ++ [(v, c')]), obs')
      | .lvs _ => .error (.adjacency v none d)
    else if d < D - 1 then
      match t with
      | .br cs =>
        match findChild cs v with
        | some c =>
          if v ≠ obs.getD d none then .error (.adjacency v (some (obs.getD d none)) d)
          else do
            let (c', obs') ← insertRowFL D act tok c rest (d+1) (obs.set d v)
            pure (.br (replaceChild cs v c'), obs')
        | none => do
            let (c', obs') ← insertRowFL D act tok (.lvs []) rest (d+1) (obs.set d v)
            pure (.br (cs ++ [(v, c')]), obs')
      | .lvs _ => .error (.adjacency v none d)
    else if d = D - 1 then
      match t with
      | .lvs ls => insertRowFL D act tok (.lvs (ls ++ [v])) rest (d+1) obs
      | .br _ => .error (.exceeded v)
    else .error (.exceeded v)

/-- Fold of `insertRowFL` over the label rows. -/
def fromLabelsGo (D : Nat) (act : Bool) (tok : γ) :
    PTree (Option γ) → List (Option γ) → List (List γ) →
    Except (BuildErr (Option γ)) (PTree (Option γ))
  | t, _, [] => .ok t
  | t, obs, r :: rs =>
    match insertRowFL D act tok t r 0 obs with
    | .error e => .error e
    | .ok (t', obs') => fromLabelsGo D act tok t' obs' rs

/-- The Python truthiness check `if index_constructors and
len(index_constructors) != depth` of `from_labels`: an empty constructor
sequence is falsy and slips past this check (failing later when
indexed). -/
def ctorCountBadFL (ics : Option (List Unit)) (D : Nat) : Bool :=
  match ics with
  | some cs => !cs.isEmpty && cs.length != D
  | none => false

/-- `IndexHierarchy.from_labels` without the `reorder_for_hierarchy`
branch: empty input yields the empty hierarchy before any depth or
constructor validation; otherwise the depth is fixed by the first tuple
(must be at least 2), the constructor count is checked by truthiness,
the tree is built row by row with optional continuation-token
substitution, and converted to levels; the result's cache starts
invalid. -/
def fromLabelsMain (act : Bool) (tok : γ) (ics : Option (List Unit))
    (labels : List (List γ)) : Except (BuildErr (Option γ)) (Hier (Option γ)) :=
  match labels with
  | [] => .ok ⟨.leaf [], none, true⟩
  | first :: rest =>
    let D := first.length
    if D < 2 then .error .tooShallow
    else if ctorCountBadFL ics D then .error .ctorCount
    else do
      let t ← fromLabelsGo D act tok (.br []) (List.replicate D none) (first :: rest)
      let lvl ← treeToLevel ics t 0
      pure ⟨lvl, none, true⟩

/-- `IndexHierarchy.from_labels` with the `reorder_for_hierarchy` flag:
an active continuation token combined with reordering raises; the
reordering itself delegates to the external `rehierarch_and_map`
machinery (container_util, not under src/), modelled from the spec as an
opaque label-reordering parameter, after which the ordinary path runs
with the token inactive. -/
def fromLabelsH (reorderFn : List (List γ) → List (List γ)) (reorder act : Bool)
    (tok : γ) (ics : Option (List Unit)) (labels : List (List γ)) :
    Except (BuildErr (Option γ)) (Hier (Option γ)) :=
  if reorder then
    if act then .error .reorderContinuation
    else fromLabelsMain false tok ics (reorderFn labels)
  else fromLabelsMain act tok ics labels

/-! ## Specification-side predicates: contiguous grouping -/

section Grouped

variable {α : Type} [DecidableEq α]

/-- Every value of the list occurs as one contiguous run: whenever the
entries at `i < k` agree, every entry in between agrees with them.  This
is the spec's adjacency invariant at one depth. -/
def Grouped (l : List α) : Prop :=
  ∀ k, k < l.length → ∀ j, j < k → ∀ i, i < j → l[i]? = l[k]? → l[j]? = l[i]?

instance (l : List α) : Decidable (Grouped l) := by
  unfold Grouped
  infer_instance

theorem Grouped.nil : Grouped ([] : List α) := by
  intro k hk
  simp at hk

theorem grouped_append_singleton {l : List α} {r : α} :
    Grouped (l ++ [r]) ↔ Grouped l ∧ (r ∉ l ∨ l.getLast? = some r) := by
  constructor
  · intro h
    constructor
    · intro k hk j hj i hi hik
      have hk' : k < (l ++ [r]).length := by simp; omega
      have e1 : (l ++ [r])[i]? = l[i]? := by
        rw [List.getElem?_append_left]
        omega
      have e2 : (l ++ [r])[j]? = l[j]? := by
        rw [List.getElem?_append_left]
        omega
      have e3 : (l ++ [r])[k]? = l[k]? := by
        rw [List.getElem?_append_left]
        omega
      have := h k hk' j hj i hi (by rw [e1, e3]; exact hik)
      rw [e1, e2] at this
      exact this
    · by_cases hmem : r ∈ l
      · right
        obtain ⟨i, hi, hgi⟩ := List.getElem_of_mem hmem
        rcases Nat.lt_or_ge i (l.length - 1) with hlt | hge
        · -- r occurs strictly before the last position of l
          have hlpos : 0 < l.length := by omega
          have hk' : l.length < (l ++ [r]).length := by simp
          have e1 : (l ++ [r])[i]? = some r := by
            rw [List.getElem?_append_left (by omega)]
            simp [List.getElem?_eq_getElem hi, hgi]
          have e3 : (l ++ [r])[l.length]? = some r := by
            rw [List.getElem?_append_right (by omega)]
            simp
          have := h l.length hk' (l.length - 1) (by omega) i (by omega) (by rw [e1, e3])
          have e2 : (l ++ [r])[l.length - 1]? = l[l.length - 1]? := by
            rw [List.getElem?_append_left (by omega)]
          rw [e2, e1] at this
          rw [List.getLast?_eq_getElem?]
          exact this
        · -- r is the last entry of l
          have : i = l.length - 1 := by omega
          subst this
          rw [List.getLast?_eq_getElem?, List.getElem?_eq_getElem hi, hgi]
      · left; exact hmem
  · rintro ⟨hg, hr⟩ k hk j hj i hi hik
    simp only [List.length_append, List.length_cons, List.length_nil] at hk
    rcases Nat.lt_or_ge k l.length with hkl | hkl
    · -- the whole triple is inside l
      have e1 : (l ++ [r])[i]? = l[i]? := List.getElem?_append_left (by omega)
      have e2 : (l ++ [r])[j]? = l[j]? := List.getElem?_append_left (by omega)
      have e3 : (l ++ [r])[k]? = l[k]? := List.getElem?_append_left (by omega)
      rw [e1, e3] at hik
      rw [e1, e2]
      exact hg k hkl j hj i hi hik
    · -- k is the appended position
      have hkeq : k = l.length := by omega
      subst hkeq
      have e3 : (l ++ [r])[l.length]? = some r := by
        rw [List.getElem?_append_right (by omega)]
        simp
      have e1 : (l ++ [r])[i]? = l[i]? := List.getElem?_append_left (by omega)
      have e2 : (l ++ [r])[j]? = l[j]? := List.getElem?_append_left (by omega)
      rw [e1, e3] at hik
      have hrl : r ∈ l := by
        obtain ⟨hlt, hget⟩ := List.getElem?_eq_some.mp hik
        exact hget ▸ List.getElem_mem hlt
      rcases hr with hnot | hlast
      · exact absurd hrl hnot
      · -- l's last entry is r; use groupedness of l against the last position
        have hlpos : 0 < l.length := List.length_pos.mpr (by
          intro he
          subst he
          simp at hrl)
        rw [List.getLast?_eq_getElem?] at hlast
        rw [e1, e2]
        rcases Nat.lt_or_ge j (l.length - 1) with hjlt | hjge
        · exact hg (l.length - 1) (by omega) j hjlt i (by omega) (by rw [hik, hlast])
        · have : j = l.length - 1 := by omega
          subst this
          rw [hlast, hik]

theorem Grouped.reverse {l : List α} (h : Grouped l) : Grouped l.reverse := by
  intro k hk j hj i hi hik
  simp only [List.length_reverse] at hk
  have gi : l.reverse[i]? = l[l.length - 1 - i]? := by
    rw [List.getElem?_reverse (by omega)]
  have gj : l.reverse[j]? = l[l.length - 1 - j]? := by
    rw [List.getElem?_reverse (by omega)]
  have gk : l.reverse[k]? = l[l.length - 1 - k]? := by
    rw [List.getElem?_reverse (by omega)]
  rw [gi, gk] at hik
  rw [gi, gj]
  have hmid := h (l.length - 1 - i) (by omega) (l.length - 1 - j) (by omega)
      (l.length - 1 - k) (by omega) hik.symm
  exact hmid.trans hik.symm

end Grouped

/-! ## Specification-side reference builder -/

section SpecBuilder

variable {β : Type} [DecidableEq β]

/-- First occurrence of each distinct value, in encounter order: the key
order of an insertion-ordered dictionary fed these values. -/
def firstKeys : List β → List β
  | [] => []
  | x :: xs => x :: firstKeys (xs.filter (· ≠ x))
termination_by l => l.length
decreasing_by
  have := List.length_filter_le (· ≠ x) xs
  simp only [List.length_cons]
  omega

@[simp] theorem firstKeys_nil : firstKeys ([] : List β) = [] := by
  rw [firstKeys]

theorem firstKeys_cons (x : β) (xs : List β) :
    firstKeys (x :: xs) = x :: firstKeys (xs.filter (· ≠ x)) := by
  rw [firstKeys]

theorem mem_firstKeys {l : List β} {a : β} : a ∈ firstKeys l ↔ a ∈ l := by
  induction l using firstKeys.induct with
  | case1 => simp
  | case2 x xs ih =>
    rw [firstKeys_cons]
    by_cases hax : a = x
    · subst hax
      simp
    · simp only [List.mem_cons, hax, false_or, ih, List.mem_filter]
      constructor
      · rintro ⟨h, _⟩
        exact h
      · intro h
        exact ⟨h, by simp [hax]⟩

theorem firstKeys_nodup (l : List β) : (firstKeys l).Nodup := by
  induction l using firstKeys.induct with
  | case1 => simp
  | case2 x xs ih =>
    rw [firstKeys_cons]
    refine List.nodup_cons.mpr ⟨?_, ih⟩
    rw [mem_firstKeys, List.mem_filter]
    rintro ⟨_, hne⟩
    simp at hne

theorem firstKeys_append_singleton (l : List β) (x : β) :
    firstKeys (l ++ [x]) = firstKeys l ++ (if x ∈ l then [] else [x]) := by
  induction l using firstKeys.induct with
  | case1 => simp [firstKeys_cons]
  | case2 y ys ih =>
    rw [List.cons_append, firstKeys_cons, List.filter_append, firstKeys_cons]
    by_cases hxy : x = y
    · subst hxy
      simp [ih]
    · have hfx : [x].filter (· ≠ y) = [x] := by simp [hxy]
      rw [hfx, ih]
      have hmem : x ∈ ys.filter (· ≠ y) ↔ x ∈ ys := by
        simp [List.mem_filter, hxy]
      by_cases hx : x ∈ ys
      · simp [hmem, hx, hxy]
      · simp [hmem, hx, hxy]

/-- Reference builder tree: the ordered-dictionary structure that a
successful pass of the flat-sequence builder leaves behind for the given
row suffixes; `fuel` is the number of dictionary levels above the leaf
lists (`depth - 1` at the root). -/
def specTree : Nat → List (List β) → PTree β
  | 0, S => .lvs (S.filterMap List.head?)
  | fuel+1, S => .br ((firstKeys (S.filterMap List.head?)).map
      (fun k => (k, specTree fuel ((S.filter (fun s => s.head? = some k)).map List.tail))))

@[simp] theorem specTree_zero (S : List (List β)) :
    specTree 0 S = .lvs (S.filterMap List.head?) := by
  rw [specTree]

theorem specTree_succ (fuel : Nat) (S : List (List β)) :
    specTree (fuel+1) S = .br ((firstKeys (S.filterMap List.head?)).map
      (fun k => (k, specTree fuel ((S.filter (fun s => s.head? = some k)).map List.tail))))
    := by
  rw [specTree]

@[simp] theorem specTree_nil_succ (fuel : Nat) :
    specTree (fuel+1) ([] : List (List β)) = .br [] := by
  rw [specTree_succ]
  simp

@[simp] theorem specTree_nil_zero :
    specTree 0 ([] : List (List β)) = .lvs [] := by
  simp

/-- Value of `observed_last` after successfully processing rows `R` of
uniform length `D`: the last row's components at depths below `D-1`, the
initial token elsewhere (the leaf depth never updates it). -/
def specObs (D : Nat) (R : List (List β)) : List (Option β) :=
  match R.getLast? with
  | none => List.replicate D none
  | some r => (r.take (D-1)).map some ++ List.replicate (D - (D-1)) none

@[simp] theorem specObs_nil (D : Nat) :
    specObs D ([] : List (List β)) = List.replicate D none := by
  rw [specObs]
  simp

theorem specObs_append (D : Nat) (R : List (List β)) (r : List β) :
    specObs D (R ++ [r]) = (r.take (D-1)).map some ++ List.replicate (D - (D-1)) none := by
  rw [specObs]
  simp

/-- The new row may extend the already-processed row suffixes: at each
depth above the leaf its component either is new under this parent or
continues the immediately preceding row's run. -/
def StepOK : List (List β) → List β → Prop
  | _, [] => True
  | _, [_] => True
  | S, v :: w :: rest =>
      (¬ ∃ s ∈ S, s.head? = some v) ∨
      ((S.getLast?.bind List.head?) = some v ∧
        StepOK ((S.filter (fun s => s.head? = some v)).map List.tail) (w :: rest))

@[simp] theorem stepOK_nil (S : List (List β)) : StepOK S [] := by
  rw [StepOK]
  trivial

@[simp] theorem stepOK_single (S : List (List β)) (v : β) : StepOK S [v] := by
  rw [StepOK]
  trivial

theorem stepOK_cons (S : List (List β)) (v w : β) (rest : List β) :
    StepOK S (v :: w :: rest) ↔
      (¬ ∃ s ∈ S, s.head? = some v) ∨
      ((S.getLast?.bind List.head?) = some v ∧
        StepOK ((S.filter (fun s => s.head? = some v)).map List.tail) (w :: rest)) := by
  rw [StepOK]

/-- All rows in sequence extend the rows before them. -/
def StepsAll : List (List β) → List (List β) → Prop
  | _, [] => True
  | R, r :: rs => StepOK R r ∧ StepsAll (R ++ [r]) rs

/-- The adjacency invariant at every non-leaf depth: for each prefix
length `m` between 1 and `D-1`, the `m`-prefixes of the rows form
contiguous runs (no closed group reopens). -/
def ContigAll (D : Nat) (rows : List (List β)) : Prop :=
  ∀ m, m < D → 1 ≤ m → Grouped (rows.map (List.take m))

instance (D : Nat) (rows : List (List β)) : Decidable (ContigAll D rows) := by
  unfold ContigAll
  infer_instance

/-- Sequence of `observed_last` updates performed while a row's
components at depths below `stop` are walked. -/
def obsWrite (stop : Nat) : List (Option β) → Nat → List β → List (Option β)
  | obs, _, [] => obs
  | obs, d, v :: rest =>
    if d < stop then obsWrite stop (obs.set d (some v)) (d+1) rest else obs

@[simp] theorem obsWrite_nil (stop : Nat) (obs : List (Option β)) (d : Nat) :
    obsWrite stop obs d [] = obs := by
  rw [obsWrite]

theorem obsWrite_cons (stop : Nat) (obs : List (Option β)) (d : Nat) (v : β) (rest : List β) :
    obsWrite stop obs d (v :: rest) =
      if d < stop then obsWrite stop (obs.set d (some v)) (d+1) rest else obs := by
  rw [obsWrite]

end SpecBuilder

/-! ## Dictionary-shape lemmas -/

section DictLemmas

variable {β : Type} [DecidableEq β] {σ : Type}

theorem findChild_map (ks : List β) (f : β → σ) (v : β) :
    findChild (ks.map (fun k => (k, f k))) v = if v ∈ ks then some (f v) else none := by
  induction ks with
  | nil => simp [findChild]
  | cons k ks ih =>
    simp only [List.map_cons, findChild]
    by_cases hkv : k = v
    · subst hkv
      simp
    · rw [if_neg hkv, ih]
      simp [List.mem_cons, Ne.symm hkv]

theorem replaceChild_cons (k : β) (c : σ) (rest : List (β × σ)) (v : β) (c' : σ) :
    replaceChild ((k, c) :: rest) v c' =
      if k = v then (k, c') :: rest else (k, c) :: replaceChild rest v c' := by
  rw [replaceChild]

theorem replaceChild_map (ks : List β) (f : β → σ) (v : β) (c' : σ) (hnd : ks.Nodup) :
    replaceChild (ks.map (fun k => (k, f k))) v c' =
      ks.map (fun k => (k, if k = v then c' else f k)) := by
  induction ks with
  | nil => simp [replaceChild]
  | cons k ks ih =>
    rcases List.nodup_cons.mp hnd with ⟨hk, hnd'⟩
    rw [List.map_cons, replaceChild_cons]
    by_cases hkv : k = v
    · subst hkv
      rw [if_pos rfl, List.map_cons, if_pos rfl]
      congr 1
      refine (List.map_congr_left ?_).symm
      intro a ha
      have hak : a ≠ k := fun h => hk (h ▸ ha)
      simp [hak]
    · rw [if_neg hkv, List.map_cons, if_neg hkv, ih hnd']

end DictLemmas

/-! ## Insertion into a fresh subtree -/

section InsertFresh
variable {β : Type} [DecidableEq β]

theorem insertRowCore_nil (D : Nat) (t : PTree β) (d : Nat) (obs : List (Option β)) :
    insertRowCore D t [] d obs = .ok (t, obs) := rfl

theorem specTree_single_cons (fuel : Nat) (v : β) (rest : List β) :
    specTree (fuel + 1) [v :: rest] = .br [(v, specTree fuel [rest])] := by
  rw [specTree_succ]
  simp [firstKeys_cons]

theorem insert_fresh (D : Nat) (rest : List β) : ∀ (d : Nat) (obs : List (Option β)),
    rest.length = D - d → d < D →
    insertRowCore D (specTree (D - 1 - d) []) rest d obs =
      .ok (specTree (D - 1 - d) [rest], obsWrite (D - 1) obs d rest) := by
  induction rest with
  | nil =>
    intro d obs hlen hd
    simp only [List.length_nil] at hlen
    omega
  | cons v rest ih =>
    intro d obs hlen hd
    simp only [List.length_cons] at hlen
    by_cases h1 : d < D - 2
    · -- intermediate depth: fresh dictionary entry holding a dictionary
      have hfuel : D - 1 - d = (D - 2 - d) + 1 := by omega
      rw [hfuel, specTree_nil_succ]
      simp only [insertRowCore, if_pos h1, findChild]
      have hchild := ih (d+1) (obs.set d (some v)) (by omega) (by omega)
      have hfuel2 : D - 1 - (d+1) = (D - 3 - d) + 1 := by omega
      rw [hfuel2, specTree_nil_succ] at hchild
      rw [hchild]
      have hgoal : (D - 2 - d) = (D - 3 - d) + 1 := by omega
      rw [obsWrite_cons, if_pos (by omega : d < D - 1), hgoal, specTree_single_cons]
      rfl
    · by_cases h2 : d < D - 1
      · -- depth D-2: fresh dictionary entry holding a leaf list
        have hd2 : d = D - 2 := by omega
        have hfuel : D - 1 - d = 0 + 1 := by omega
        rw [hfuel, specTree_nil_succ]
        simp only [insertRowCore, if_neg h1, if_pos h2, findChild]
        have hchild := ih (d+1) (obs.set d (some v)) (by omega) (by omega)
        have hfuel2 : D - 1 - (d+1) = 0 := by omega
        rw [hfuel2, specTree_nil_zero] at hchild
        rw [hchild]
        rw [obsWrite_cons, if_pos (by omega : d < D - 1), specTree_single_cons]
        rfl
      · -- leaf depth: append
        have hd3 : d = D - 1 := by omega
        have hrest : rest = [] := by
          have : rest.length = 0 := by omega
          exact List.eq_nil_of_length_eq_zero this
        subst hrest
        have hfuel : D - 1 - d = 0 := by omega
        rw [hfuel, specTree_nil_zero]
        simp only [insertRowCore, if_neg h1, if_neg h2, if_pos hd3]
        rw [obsWrite_cons, if_neg (by omega : ¬ d < D - 1)]
        simp

end InsertFresh

/-! ## Insertion into a populated subtree -/

section InsertAligned
variable {β : Type} [DecidableEq β]

theorem getLast?_filter_of_pred {α : Type} {S : List α} {p : α → Bool} {s : α}
    (h : S.getLast? = some s) (hp : p s = true) : (S.filter p).getLast? = some s := by
  induction S with
  | nil => simp at h
  | cons a S ih =>
    rcases S with _ | ⟨b, S'⟩
    · simp at h
      subst h
      simp [List.filter, hp]
    · rw [List.getLast?_cons_cons] at h
      have hrec := ih h
      rw [List.filter_cons]
      by_cases hpa : p a
      · rw [if_pos hpa]
        have hne : (b :: S').filter p ≠ [] := by
          intro hnil
          rw [hnil] at hrec
          simp at hrec
        rcases hx : (b :: S').filter p with _ | ⟨c, cs⟩
        · exact absurd hx hne
        · rw [hx] at hrec
          rw [List.getLast?_cons_cons]
          exact hrec
      · rw [if_neg hpa]
        exact hrec

theorem mem_of_getLast? {α : Type} {S : List α} {s : α} (h : S.getLast? = some s) : s ∈ S := by
  rw [List.getLast?_eq_getElem?] at h
  obtain ⟨hlt, hget⟩ := List.getElem?_eq_some.mp h
  exact hget ▸ List.getElem_mem hlt

theorem getD_set_ne (l : List (Option β)) (d d' : Nat) (x : Option β) (h : d ≠ d') :
    (l.set d x).getD d' none = l.getD d' none := by
  rw [List.getD_eq_getElem?_getD, List.getD_eq_getElem?_getD, List.getElem?_set_ne h]

theorem except_bind_ok {ε α γ' : Type} (a : α) (f : α → Except ε γ') :
    ((Except.ok a : Except ε α) >>= f) = f a := rfl

theorem except_bind_error {ε α γ' : Type} (e : ε) (f : α → Except ε γ') :
    ((Except.error e : Except ε α) >>= f) = .error e := rfl

theorem exists_error_of_not_isOk {ε α : Type} {m : Except ε α} (h : m.isOk = false) :
    ∃ e, m = .error e := by
  cases m with
  | error e => exact ⟨e, rfl⟩
  | ok a => simp [Except.isOk, Except.toBool] at h

/-- Found-key reduction of one insertion step at a dictionary node above
the leaf depth. -/
theorem insertRowCore_br_found (D : Nat) {cs : List (β × PTree β)} {v : β} {c : PTree β}
    (rest : List β) (d : Nat) (obs : List (Option β)) (hd : d < D - 1)
    (hf : findChild cs v = some c) :
    insertRowCore D (.br cs) (v :: rest) d obs =
      (if obs.getD d none ≠ some v then .error (.adjacency v (obs.getD d none) d)
       else do
         let (c', obs') ← insertRowCore D c rest (d+1) (obs.set d (some v))
         pure (.br (replaceChild cs v c'), obs')) := by
  by_cases h1 : d < D - 2
  · simp only [insertRowCore, if_pos h1, hf]
  · simp only [insertRowCore, if_neg h1, if_pos hd, hf]

/-- Fresh-key reduction: the created child is the empty tree of the
remaining shape. -/
theorem insertRowCore_br_fresh (D : Nat) {cs : List (β × PTree β)} {v : β}
    (rest : List β) (d : Nat) (obs : List (Option β)) (hd : d < D - 1)
    (hf : findChild cs v = none) :
    insertRowCore D (.br cs) (v :: rest) d obs =
      (do
        let (c', obs') ← insertRowCore D (specTree (D - 1 - (d+1)) []) rest (d+1)
          (obs.set d (some v))
        pure (.br (cs ++ [(v, c')]), obs')) := by
  by_cases h1 : d < D - 2
  · have he : D - 1 - (d+1) = (D - 3 - d) + 1 := by omega
    rw [he, specTree_nil_succ]
    simp only [insertRowCore, if_pos h1, hf]
  · have he : D - 1 - (d+1) = 0 := by omega
    rw [he, specTree_nil_zero]
    simp only [insertRowCore, if_neg h1, if_pos hd, hf]

theorem insertRowCore_leafd (D : Nat) (ls : List β) (v : β) (rest : List β)
    (d : Nat) (obs : List (Option β)) (hd : d = D - 1) :
    insertRowCore D (.lvs ls) (v :: rest) d obs =
      insertRowCore D (.lvs (ls ++ [v])) rest (d+1) obs := by
  simp only [insertRowCore, if_neg (by omega : ¬ d < D - 2), if_neg (by omega : ¬ d < D - 1),
    if_pos hd]

theorem insert_aligned (D : Nat) (rest : List β) :
    ∀ (d : Nat) (S : List (List β)) (obs : List (Option β)),
    rest.length = D - d → d < D →
    (∀ s ∈ S, s.length = D - d) →
    (∀ d', d ≤ d' → d' < D - 1 →
        obs.getD d' none = S.getLast?.bind (fun s => s[d' - d]?)) →
    ((StepOK S rest →
      insertRowCore D (specTree (D - 1 - d) S) rest d obs =
        .ok (specTree (D - 1 - d) (S ++ [rest]), obsWrite (D - 1) obs d rest)) ∧
     (¬ StepOK S rest →
      (insertRowCore D (specTree (D - 1 - d) S) rest d obs).isOk = false)) := by
  induction rest with
  | nil =>
    intro d S obs hlen hd hS hobs
    simp only [List.length_nil] at hlen
    omega
  | cons v rest ih =>
    intro d S obs hlen hd hS hobs
    simp only [List.length_cons] at hlen
    by_cases hleaf : d = D - 1
    · -- leaf depth: unconditional append
      have hrest : rest = [] := by
        apply List.eq_nil_of_length_eq_zero
        omega
      subst hrest
      have hfuel : D - 1 - d = 0 := by omega
      rw [hfuel, specTree_zero, insertRowCore_leafd D _ v [] d obs hleaf,
        insertRowCore_nil]
      refine ⟨fun _ => ?_, fun hno => absurd (stepOK_single S v) hno⟩
      rw [obsWrite_cons, if_neg (by omega : ¬ d < D - 1)]
      simp [specTree_zero, List.filterMap_append]
    · -- dictionary depth
      have hdlt : d < D - 1 := by omega
      -- rest is nonempty below the leaf depth
      rcases rest with _ | ⟨w, rest'⟩
      · simp only [List.length_nil] at hlen
        omega
      have hfuel : D - 1 - d = (D - 1 - (d + 1)) + 1 := by omega
      rw [hfuel, specTree_succ]
      set hs := S.filterMap List.head? with hhs
      set ks := firstKeys hs with hks
      set fuel := D - 1 - (d + 1) with hfj
      set childOf := fun k => specTree fuel ((S.filter (fun s => s.head? = some k)).map List.tail)
        with hchildOf
      have hmap : (ks.map (fun k =>
          (k, specTree fuel ((S.filter (fun s => s.head? = some k)).map List.tail)))) =
          ks.map (fun k => (k, childOf k)) := rfl
      rw [hmap]
      by_cases hv : v ∈ ks
      · -- key already present
        have hvhs : v ∈ hs := mem_firstKeys.mp hv
        have hSne : S ≠ [] := by
          intro he
          rw [he] at hhs
          rw [hhs] at hvhs
          simp at hvhs
        obtain ⟨slast, hslast⟩ := Option.ne_none_iff_exists'.mp
          (fun h => hSne (List.getLast?_eq_none_iff.mp h))
        have hobsd : obs.getD d none = slast.head? := by
          have h0 := hobs d (le_refl d) hdlt
          rw [h0, hslast]
          simp [List.head?_eq_getElem?]
        have hfind : findChild (ks.map (fun k => (k, childOf k))) v = some (childOf v) := by
          rw [findChild_map, if_pos hv]
        rw [insertRowCore_br_found D (w :: rest') d obs hdlt hfind]
        have hex : ∃ s ∈ S, s.head? = some v := List.mem_filterMap.mp (hhs ▸ hvhs)
        by_cases hlastv : slast.head? = some v
        · -- continues the last row's run: descend
          have hcond : ¬ (obs.getD d none ≠ some v) := by
            rw [hobsd, hlastv]
            exact fun hcon => hcon rfl
          rw [if_neg hcond]
          set Sv := (S.filter (fun s => s.head? = some v)).map List.tail with hSvdef
          have hSvlast : Sv.getLast? = some slast.tail := by
            rw [hSvdef, List.getLast?_map, getLast?_filter_of_pred hslast (by simp [hlastv])]
            rfl
          have hSvlen : ∀ s ∈ Sv, s.length = D - (d + 1) := by
            intro s hsm
            rw [hSvdef] at hsm
            obtain ⟨s', hs'm, hs'e⟩ := List.mem_map.mp hsm
            have hs'S := (List.mem_filter.mp hs'm).1
            have hl := hS s' hs'S
            subst hs'e
            simp only [List.length_tail]
            omega
          have hobs' : ∀ d', d + 1 ≤ d' → d' < D - 1 →
              (obs.set d (some v)).getD d' none =
                Sv.getLast?.bind (fun s => s[d' - (d+1)]?) := by
            intro d' hdd' hd'
            rw [getD_set_ne _ _ _ _ (by omega), hobs d' (by omega) hd', hslast, hSvlast]
            simp only [Option.some_bind]
            rw [List.getElem?_tail]
            congr 1
            omega
          obtain ⟨hrecA, hrecB⟩ := ih (d+1) Sv (obs.set d (some v)) (by omega) (by omega)
            hSvlen hobs'
          have hslhead : S.getLast?.bind List.head? = some v := by
            rw [hslast]
            simpa using hlastv
          have hstepiff : StepOK S (v :: w :: rest') ↔ StepOK Sv (w :: rest') := by
            rw [stepOK_cons]
            constructor
            · rintro (hno | ⟨_, hc⟩)
              · exact absurd hex hno
              · exact hc
            · intro hc
              exact Or.inr ⟨hslhead, hc⟩
          constructor
          · intro hstep
            have hcstep := hstepiff.mp hstep
            rw [hrecA hcstep, except_bind_ok]
            -- reduce the pure and prove the resulting tree equality
            have htree : PTree.br (replaceChild (ks.map (fun k => (k, childOf k))) v
                (specTree fuel (Sv ++ [w :: rest']))) =
                specTree (fuel + 1) (S ++ [v :: w :: rest']) := by
              rw [specTree_succ]
              have hheads : (S ++ [v :: w :: rest']).filterMap List.head? = hs ++ [v] := by
                rw [List.filterMap_append, hhs]
                rfl
              rw [hheads, firstKeys_append_singleton, if_pos hvhs, List.append_nil, ← hks]
              rw [replaceChild_map _ _ _ _ (hks ▸ firstKeys_nodup hs)]
              apply congrArg
              apply List.map_congr_left
              intro k hk
              by_cases hkv : k = v
              · subst hkv
                rw [if_pos rfl]
                have hfl : (S ++ [k :: w :: rest']).filter (fun s => s.head? = some k) =
                    S.filter (fun s => s.head? = some k) ++ [k :: w :: rest'] := by
                  rw [List.filter_append]
                  simp [List.filter]
                rw [hfl, List.map_append, ← hSvdef]
                rfl
              · rw [if_neg hkv]
                have hfl : (S ++ [v :: w :: rest']).filter (fun s => s.head? = some k) =
                    S.filter (fun s => s.head? = some k) := by
                  rw [List.filter_append]
                  have : ([v :: w :: rest'].filter (fun s => s.head? = some k)) = [] := by
                    simp [List.filter, Ne.symm hkv]
                  rw [this, List.append_nil]
                rw [hfl]
            rw [← htree]
            conv_rhs => rw [obsWrite_cons, if_pos hdlt]
            rfl
          · intro hno
            have hcno := fun hc => hno (hstepiff.mpr hc)
            obtain ⟨e, he⟩ := exists_error_of_not_isOk (hrecB hcno)
            rw [he, except_bind_error]
            rfl
        · -- closed group would reopen: adjacency error
          have hcond : obs.getD d none ≠ some v := by
            rw [hobsd]
            exact hlastv
          rw [if_pos hcond]
          have hnostep : ¬ StepOK S (v :: w :: rest') := by
            rw [stepOK_cons]
            rintro (hno | ⟨hl, _⟩)
            · exact hno hex
            · rw [hslast] at hl
              simp only [Option.some_bind] at hl
              exact hlastv hl
          exact ⟨fun hstep => absurd hstep hnostep, fun _ => rfl⟩
      · -- fresh key
        have hvhs : v ∉ hs := fun h => hv (mem_firstKeys.mpr h)
        have hfind : findChild (ks.map (fun k => (k, childOf k))) v = none := by
          rw [findChild_map, if_neg hv]
        rw [insertRowCore_br_fresh D (w :: rest') d obs hdlt hfind]
        have hlen2 : (w :: rest').length = D - (d + 1) := by
          simp only [List.length_cons] at hlen ⊢
          omega
        have hfresh := insert_fresh D (w :: rest') (d+1) (obs.set d (some v)) hlen2 (by omega)
        rw [hfresh, except_bind_ok]
        have hnoex : ¬ ∃ s ∈ S, s.head? = some v := by
          intro hex
          exact hvhs (hhs ▸ List.mem_filterMap.mpr hex)
        have hstep : StepOK S (v :: w :: rest') := by
          rw [stepOK_cons]
          exact Or.inl hnoex
        refine ⟨fun _ => ?_, fun hno => absurd hstep hno⟩
        have htree : PTree.br ((ks.map (fun k => (k, childOf k))) ++
            [(v, specTree (D - 1 - (d+1)) [w :: rest'])]) =
            specTree (fuel + 1) (S ++ [v :: w :: rest']) := by
          rw [specTree_succ]
          have hheads : (S ++ [v :: w :: rest']).filterMap List.head? = hs ++ [v] := by
            rw [List.filterMap_append, hhs]
            rfl
          rw [hheads, firstKeys_append_singleton, if_neg hvhs]
          rw [List.map_append, ← hks]
          congr 1
          congr 1
          · apply List.map_congr_left
            intro k hk
            have hkv : k ≠ v := by
              intro he
              exact hv (he ▸ hk)
            have hfl : (S ++ [v :: w :: rest']).filter (fun s => s.head? = some k) =
                S.filter (fun s => s.head? = some k) := by
              rw [List.filter_append]
              have hnil : ([v :: w :: rest'].filter (fun s => s.head? = some k)) = [] := by
                simp [List.filter, Ne.symm hkv]
              rw [hnil, List.append_nil]
            rw [hfl]
          · have hSfl : S.filter (fun s => s.head? = some v) = [] := by
              rw [List.filter_eq_nil_iff]
              intro s hsm
              simp only [decide_eq_true_eq]
              intro hh
              exact hvhs (hhs ▸ List.mem_filterMap.mpr ⟨s, hsm, hh⟩)
            have hfl : (S ++ [v :: w :: rest']).filter (fun s => s.head? = some v) =
                [v :: w :: rest'] := by
              rw [List.filter_append, hSfl]
              simp [List.filter]
            simp only [List.map_cons, List.map_nil, hfl, ← hfj]
            rfl
        rw [← htree]
        have hobsw : obsWrite (D - 1) obs d (v :: w :: rest') =
            obsWrite (D - 1) (obs.set d (some v)) (d + 1) (w :: rest') := by
          rw [obsWrite_cons, if_pos hdlt]
        rw [hobsw]
        rfl

end InsertAligned

/-! ## The builder fold against the reference builder -/

section FoldSpec
variable {β : Type} [DecidableEq β]

theorem specObs_length (D : Nat) (R : List (List β)) (hR : ∀ r ∈ R, r.length = D) :
    (specObs D R).length = D := by
  rw [specObs]
  cases hlast : R.getLast? with
  | none => simp
  | some r =>
    have hr : r.length = D := hR r (mem_of_getLast? hlast)
    simp only [List.length_append, List.length_map, List.length_take, List.length_replicate, hr]
    omega

theorem specObs_getD (D : Nat) (R : List (List β)) (hR : ∀ r ∈ R, r.length = D)
    (d : Nat) (hd : d < D) :
    (specObs D R).getD d none =
      (if d < D - 1 then R.getLast?.bind (fun s => s[d]?) else none) := by
  rw [specObs]
  cases hlast : R.getLast? with
  | none =>
    simp only [Option.none_bind, ite_self]
    rw [List.getD_eq_getElem?_getD, List.getElem?_replicate]
    simp [hd]
  | some r =>
    have hr : r.length = D := hR r (mem_of_getLast? hlast)
    rw [List.getD_eq_getElem?_getD]
    by_cases hdd : d < D - 1
    · rw [if_pos hdd, List.getElem?_append_left]
      · rw [List.getElem?_map, List.getElem?_take, if_pos hdd,
          List.getElem?_eq_getElem (show d < r.length by omega)]
        simp
      · simp only [List.length_map, List.length_take, hr]
        omega
    · rw [if_neg hdd, List.getElem?_append_right]
      · rw [List.getElem?_replicate]
        simp only [List.length_map, List.length_take, hr]
        rw [if_pos (by omega)]
        rfl
      · simp only [List.length_map, List.length_take, hr]
        omega

theorem obsWrite_length (stop : Nat) (r : List β) :
    ∀ (obs : List (Option β)) (d : Nat), (obsWrite stop obs d r).length = obs.length := by
  induction r with
  | nil =>
    intro obs d
    simp
  | cons v r ih =>
    intro obs d
    rw [obsWrite_cons]
    by_cases hlt : d < stop
    · rw [if_pos hlt, ih]
      simp
    · rw [if_neg hlt]

theorem obsWrite_getElem? (stop : Nat) (r : List β) :
    ∀ (obs : List (Option β)) (d i : Nat), i < obs.length →
    (obsWrite stop obs d r)[i]? =
      (if d ≤ i ∧ i < stop ∧ i - d < r.length then (r[i - d]?).map some else obs[i]?) := by
  induction r with
  | nil =>
    intro obs d i hi
    simp
  | cons v r ih =>
    intro obs d i hi
    rw [obsWrite_cons]
    by_cases hlt : d < stop
    · rw [if_pos hlt, ih _ (d+1) i (by simp [hi])]
      by_cases hid : i = d
      · subst hid
        rw [if_neg (by omega), if_pos ⟨le_refl i, hlt, by simp⟩]
        rw [List.getElem?_set_self hi]
        simp
      · by_cases hcond : d + 1 ≤ i ∧ i < stop ∧ i - (d + 1) < r.length
        · rw [if_pos hcond,
            if_pos (show d ≤ i ∧ i < stop ∧ i - d < (v :: r).length by
              refine ⟨by omega, hcond.2.1, ?_⟩
              simp only [List.length_cons]
              omega)]
          congr 1
          rw [List.getElem?_cons, if_neg (by omega : ¬ i - d = 0)]
          congr 1
        · rw [if_neg hcond, List.getElem?_set_ne (Ne.symm hid)]
          rw [if_neg ?hc]
          case hc =>
            rintro ⟨h1, h2, h3⟩
            simp only [List.length_cons] at h3
            exact hcond ⟨by omega, h2, by omega⟩
    · rw [if_neg hlt, if_neg ?hc2]
      case hc2 =>
        rintro ⟨h1, h2, _⟩
        omega

/-- After a full successful row insertion from the root, `observed_last`
is the new row's prefix below the leaf depth. -/
theorem obsWrite_specObs (D : Nat) (R : List (List β)) (r : List β)
    (hR : ∀ s ∈ R, s.length = D) (hr : r.length = D) (hD : 1 ≤ D) :
    obsWrite (D - 1) (specObs D R) 0 r = specObs D (R ++ [r]) := by
  apply List.ext_getElem?
  intro i
  have hlenL : (obsWrite (D - 1) (specObs D R) 0 r).length = D := by
    rw [obsWrite_length, specObs_length D R hR]
  have hlenR : (specObs D (R ++ [r])).length = D := by
    apply specObs_length
    intro s hs
    rcases List.mem_append.mp hs with h | h
    · exact hR s h
    · simp at h
      subst h
      exact hr
  by_cases hi : i < D
  · rw [obsWrite_getElem? _ _ _ _ _ (by rw [specObs_length D R hR]; exact hi)]
    have hgR : (specObs D (R ++ [r]))[i]? = some ((specObs D (R ++ [r])).getD i none) := by
      rw [List.getD_eq_getElem?_getD]
      rw [List.getElem?_eq_getElem (by rw [hlenR]; exact hi)]
      rfl
    have hgL : (specObs D R)[i]? = some ((specObs D R).getD i none) := by
      rw [List.getD_eq_getElem?_getD]
      rw [List.getElem?_eq_getElem (by rw [specObs_length D R hR]; exact hi)]
      rfl
    rw [hgR, specObs_getD D (R ++ [r]) (fun s hs => by
        rcases List.mem_append.mp hs with h | h
        · exact hR s h
        · simp at h
          subst h
          exact hr) i hi]
    by_cases hil : i < D - 1
    · rw [if_pos ⟨Nat.zero_le i, hil, by omega⟩, if_pos hil]
      rw [List.getLast?_concat]
      simp only [Nat.sub_zero, Option.some_bind]
      rw [List.getElem?_eq_getElem (show i < r.length by omega)]
      rfl
    · rw [if_neg (by omega : ¬ (0 ≤ i ∧ i < D - 1 ∧ i - 0 < r.length)), if_neg hil]
      rw [hgL, specObs_getD D R hR i hi, if_neg hil]
  · have h1 : (obsWrite (D - 1) (specObs D R) 0 r)[i]? = none := by
      rw [List.getElem?_eq_none]
      omega
    have h2 : (specObs D (R ++ [r]))[i]? = none := by
      rw [List.getElem?_eq_none]
      omega
    rw [h1, h2]

theorem buildGo_cons (D : Nat) (t : PTree β) (obs : List (Option β)) (r : List β)
    (rs : List (List β)) :
    buildGo D t obs (r :: rs) =
      (match insertRowCore D t r 0 obs with
       | .error e => .error e
       | .ok (t', obs') => buildGo D t' obs' rs) := by
  rw [buildGo]

/-- The fold of row insertions from a state representing `R`: success
exactly when each row in turn extends its predecessors, and on success
the final tree is the reference tree of all rows. -/
theorem buildGo_spec (D : Nat) (rows : List (List β)) :
    ∀ (R : List (List β)),
    (∀ r ∈ R, r.length = D) → (∀ r ∈ rows, r.length = D) → 2 ≤ D →
    ((StepsAll R rows →
        buildGo D (specTree (D-1) R) (specObs D R) rows = .ok (specTree (D-1) (R ++ rows))) ∧
     (¬ StepsAll R rows →
        (buildGo D (specTree (D-1) R) (specObs D R) rows).isOk = false)) := by
  induction rows with
  | nil =>
    intro R hR _ hD
    constructor
    · intro _
      rw [buildGo, List.append_nil]
    · intro hno
      exact absurd (by rw [StepsAll]; trivial) hno
  | cons r rs ih =>
    intro R hR hrows hD
    have hr : r.length = D := hrows r (List.mem_cons_self r rs)
    have hrs : ∀ s ∈ rs, s.length = D := fun s hs => hrows s (List.mem_cons_of_mem r hs)
    have hobs : ∀ d', 0 ≤ d' → d' < D - 1 →
        (specObs D R).getD d' none = R.getLast?.bind (fun s => s[d' - 0]?) := by
      intro d' _ hd'
      rw [specObs_getD D R hR d' (by omega), if_pos hd']
      simp
    obtain ⟨hA, hB⟩ := insert_aligned D r 0 R (specObs D R)
      (by omega) (by omega) (fun s hs => by rw [hR s hs]; omega) hobs
    have hD10 : D - 1 - 0 = D - 1 := by omega
    rw [hD10] at hA hB
    have hsteps : StepsAll R (r :: rs) ↔ StepOK R r ∧ StepsAll (R ++ [r]) rs := by
      rw [StepsAll]
    by_cases hso : StepOK R r
    · have hok := hA hso
      have hR' : ∀ s ∈ R ++ [r], s.length = D := by
        intro s hs
        rcases List.mem_append.mp hs with h | h
        · exact hR s h
        · simp at h
          subst h
          exact hr
      obtain ⟨ihA, ihB⟩ := ih (R ++ [r]) hR' hrs hD
      have hred : buildGo D (specTree (D-1) R) (specObs D R) (r :: rs) =
          buildGo D (specTree (D-1) (R ++ [r])) (specObs D (R ++ [r])) rs := by
        rw [buildGo_cons, hok, obsWrite_specObs D R r hR hr (by omega)]
      constructor
      · intro hsa
        rw [StepsAll] at hsa
        rw [hred, ihA hsa.2, List.append_assoc, List.singleton_append]
      · intro hno
        have hnos : ¬ StepsAll (R ++ [r]) rs := by
          intro hs
          exact hno (by rw [StepsAll]; exact ⟨hso, hs⟩)
        rw [hred]
        exact ihB hnos
    · obtain ⟨e, he⟩ := exists_error_of_not_isOk (hB hso)
      have hred : buildGo D (specTree (D-1) R) (specObs D R) (r :: rs) = .error e := by
        rw [buildGo_cons, he]
      constructor
      · intro hsa
        rw [StepsAll] at hsa
        exact absurd hsa.1 hso
      · intro _
        rw [hred]
        rfl

/-- The whole builder loop: success exactly when each row extends its
predecessors, and on success the tree is the reference tree. -/
theorem buildTreeCore_spec (D : Nat) (rows : List (List β))
    (hrows : ∀ r ∈ rows, r.length = D) (hD : 2 ≤ D) :
    (StepsAll [] rows → buildTreeCore D rows = .ok (specTree (D-1) rows)) ∧
    (¬ StepsAll [] rows → (buildTreeCore D rows).isOk = false) := by
  have h := buildGo_spec D rows [] (by simp) hrows hD
  have h1 : specTree (D-1) ([] : List (List β)) = .br [] := by
    have he : D - 1 = (D - 2) + 1 := by omega
    rw [he, specTree_nil_succ]
  rw [h1, specObs_nil] at h
  rw [buildTreeCore]
  simpa using h

end FoldSpec

/-! ## The builder condition as the global adjacency invariant -/

section Bridge
variable {β : Type} [DecidableEq β]

theorem take_one_eq_singleton {s : List β} {v : β} :
    s.take 1 = [v] ↔ s.head? = some v := by
  cases s with
  | nil => simp
  | cons a t => simp [List.take]

theorem take_succ_eq_cons {s u : List β} {v : β} {m : Nat} :
    s.take (m+1) = v :: u ↔ ∃ t, s = v :: t ∧ t.take m = u := by
  cases s with
  | nil => simp
  | cons a t =>
    simp only [List.take_succ_cons, List.cons.injEq]
    constructor
    · rintro ⟨ha, hu⟩
      subst ha
      exact ⟨t, ⟨rfl, rfl⟩, hu⟩
    · rintro ⟨t', ⟨ha, ht'⟩, hu⟩
      subst ha
      subst ht'
      exact ⟨rfl, hu⟩

theorem mem_map_take_one {S : List (List β)} {v : β} :
    [v] ∈ S.map (List.take 1) ↔ ∃ s ∈ S, s.head? = some v := by
  rw [List.mem_map]
  constructor
  · rintro ⟨s, hs, heq⟩
    exact ⟨s, hs, take_one_eq_singleton.mp heq⟩
  · rintro ⟨s, hs, hh⟩
    exact ⟨s, hs, take_one_eq_singleton.mpr hh⟩

theorem mem_map_take_succ {S : List (List β)} {v : β} {u : List β} {m : Nat} :
    v :: u ∈ S.map (List.take (m+1)) ↔
      u ∈ ((S.filter (fun s => s.head? = some v)).map List.tail).map (List.take m) := by
  rw [List.mem_map, List.mem_map]
  constructor
  · rintro ⟨s, hs, heq⟩
    obtain ⟨t, hst, htu⟩ := take_succ_eq_cons.mp heq
    refine ⟨t, ?_, htu⟩
    rw [List.mem_map]
    refine ⟨s, ?_, by rw [hst]; rfl⟩
    rw [List.mem_filter]
    exact ⟨hs, by rw [hst]; simp⟩
  · rintro ⟨t, htm, htu⟩
    rw [List.mem_map] at htm
    obtain ⟨s, hsf, hst⟩ := htm
    rw [List.mem_filter] at hsf
    obtain ⟨hsS, hsh⟩ := hsf
    simp only [decide_eq_true_eq] at hsh
    have hs' : s = v :: t := by
      cases s with
      | nil => simp at hsh
      | cons a t' =>
        simp only [List.head?_cons, Option.some.injEq] at hsh
        rw [hsh]
        rw [← hst]
        rfl
    exact ⟨s, hsS, by rw [hs']; simp [htu]⟩

theorem getLast_map_take_one {S : List (List β)} {v : β} :
    (S.map (List.take 1)).getLast? = some [v] ↔
      S.getLast?.bind List.head? = some v := by
  rw [List.getLast?_map]
  cases hlast : S.getLast? with
  | none => simp
  | some slast =>
    simp only [Option.map_some', Option.some_bind, Option.some.injEq]
    exact take_one_eq_singleton

theorem getLast_map_take_succ {S : List (List β)} {v : β} {u : List β} {m : Nat}
    {slast : List β} (hlast : S.getLast? = some slast) (hhead : slast.head? = some v) :
    ((S.map (List.take (m+1))).getLast? = some (v :: u) ↔
      (((S.filter (fun s => s.head? = some v)).map List.tail).map
        (List.take m)).getLast? = some u) := by
  obtain ⟨t, ht⟩ : ∃ t, slast = v :: t := by
    cases slast with
    | nil => simp at hhead
    | cons a t =>
      simp only [List.head?_cons, Option.some.injEq] at hhead
      exact ⟨t, by rw [hhead]⟩
  have hSv : ((S.filter (fun s => s.head? = some v)).map List.tail).getLast? = some t := by
    rw [List.getLast?_map, getLast?_filter_of_pred hlast (by simp [hhead])]
    rw [ht]
    rfl
  rw [List.getLast?_map, hlast, Option.map_some', Option.some.injEq]
  rw [List.getLast?_map, hSv, Option.map_some', Option.some.injEq]
  rw [ht]
  simp

/-- The global per-prefix condition that one more row must satisfy. -/
def PrefCondAll (S : List (List β)) (rest : List β) : Prop :=
  ∀ m, 1 ≤ m → m < rest.length →
    (rest.take m ∉ S.map (List.take m)) ∨
      ((S.map (List.take m)).getLast? = some (rest.take m))

/-- The builder's recursive step condition coincides with the global
per-prefix-length condition. -/
theorem stepOK_iff_prefCondAll (rest : List β) :
    ∀ (S : List (List β)), (∀ s ∈ S, s.length = rest.length) →
    (StepOK S rest ↔ PrefCondAll S rest) := by
  induction rest with
  | nil =>
    intro S hS
    simp only [stepOK_nil, true_iff]
    intro m h1 h2
    simp at h2
  | cons v rest ih =>
    rcases rest with _ | ⟨w, rest'⟩
    · intro S hS
      simp only [stepOK_single, true_iff]
      intro m h1 h2
      simp at h2
      omega
    · intro S hS
      have hlen : (v :: w :: rest').length = rest'.length + 2 := by simp
      set Sv := (S.filter (fun s => s.head? = some v)).map List.tail with hSvdef
      have hSvlen : ∀ t ∈ Sv, t.length = (w :: rest').length := by
        intro t htm
        rw [hSvdef] at htm
        obtain ⟨s, hsm, hse⟩ := List.mem_map.mp htm
        have hsS := (List.mem_filter.mp hsm).1
        have := hS s hsS
        subst hse
        simp only [List.length_tail, List.length_cons] at this ⊢
        omega
      have ihv := ih Sv hSvlen
      rw [stepOK_cons]
      constructor
      · rintro (hfresh | ⟨hlast, hchild⟩)
        · -- fresh head: every prefix of the new row is new
          intro m h1 h2
          left
          intro hmem
          apply hfresh
          rcases m with _ | m'
          · omega
          · rcases m' with _ | m''
            · exact mem_map_take_one.mp hmem
            · obtain ⟨t, htm, _⟩ := List.mem_map.mp (mem_map_take_succ.mp
                (by simpa using hmem))
              obtain ⟨s, hsm, _⟩ := List.mem_map.mp htm
              obtain ⟨hsS, hsh⟩ := List.mem_filter.mp hsm
              simp only [decide_eq_true_eq] at hsh
              exact ⟨s, hsS, hsh⟩
        · -- the head continues the last run; use the child equivalence
          obtain ⟨slast, hslast, hshead⟩ : ∃ slast, S.getLast? = some slast ∧
              slast.head? = some v := by
            cases hsl : S.getLast? with
            | none => rw [hsl] at hlast; simp at hlast
            | some s0 =>
              rw [hsl] at hlast
              simp only [Option.some_bind] at hlast
              exact ⟨s0, rfl, hlast⟩
          have hpc := ihv.mp hchild
          intro m h1 h2
          rcases m with _ | m'
          · omega
          · rcases m' with _ | m''
            · right
              exact getLast_map_take_one.mpr hlast
            · have hm'' := hpc (m'' + 1) (by omega) (by
                simp only [List.length_cons] at h2 ⊢
                omega)
              rcases hm'' with hfirst | hlast2
              · left
                intro hmem
                exact hfirst (mem_map_take_succ.mp (by simpa using hmem))
              · right
                have := (getLast_map_take_succ hslast hshead).mpr hlast2
                simpa using this
      · intro hpc
        by_cases hex : ∃ s ∈ S, s.head? = some v
        · right
          have h1 := hpc 1 (by omega) (by simp)
          rcases h1 with hfirst | hlast1
          · exact absurd (mem_map_take_one.mpr hex) (by simpa using hfirst)
          · have hlast : S.getLast?.bind List.head? = some v :=
              getLast_map_take_one.mp (by simpa using hlast1)
            refine ⟨hlast, ihv.mpr ?_⟩
            obtain ⟨slast, hslast, hshead⟩ : ∃ slast, S.getLast? = some slast ∧
                slast.head? = some v := by
              cases hsl : S.getLast? with
              | none => rw [hsl] at hlast; simp at hlast
              | some s0 =>
                rw [hsl] at hlast
                simp only [Option.some_bind] at hlast
                exact ⟨s0, rfl, hlast⟩
            intro m' hm1 hm2
            have hp := hpc (m' + 1) (by omega) (by
              simp only [List.length_cons] at hm2 ⊢
              omega)
            rcases hp with hfirst | hlast2
            · left
              intro hmem
              exact hfirst (by simpa using mem_map_take_succ.mpr hmem)
            · right
              exact (getLast_map_take_succ hslast hshead).mp (by simpa using hlast2)
        · exact Or.inl hex

end Bridge

section Bridge2
variable {β : Type} [DecidableEq β]

theorem Grouped.takePrefix {α : Type} [DecidableEq α] {l : List α} (h : Grouped l) (n : Nat) :
    Grouped (l.take n) := by
  intro k hk j hj i hi hik
  simp only [List.length_take] at hk
  have hkl : k < l.length := by omega
  have e1 : (l.take n)[i]? = l[i]? := by
    rw [List.getElem?_take, if_pos (by omega)]
  have e2 : (l.take n)[j]? = l[j]? := by
    rw [List.getElem?_take, if_pos (by omega)]
  have e3 : (l.take n)[k]? = l[k]? := by
    rw [List.getElem?_take, if_pos (by omega)]
  rw [e1, e2]
  rw [e1, e3] at hik
  exact h k hkl j hj i hi hik

theorem contigAll_take (D : Nat) (l : List (List β)) (h : ContigAll D l) (n : Nat) :
    ContigAll D (l.take n) := by
  intro m hm h1
  rw [List.map_take]
  exact (h m hm h1).takePrefix n

/-- Appending one row preserves the adjacency invariant exactly when the
new row's prefixes are each new or continue the last row. -/
theorem contigAll_snoc (D : Nat) (R : List (List β)) (r : List β) (hr : r.length = D) :
    ContigAll D (R ++ [r]) ↔ ContigAll D R ∧ PrefCondAll R r := by
  constructor
  · intro h
    constructor
    · intro m hm h1
      have := h m hm h1
      rw [List.map_append] at this
      exact (grouped_append_singleton.mp (by simpa using this)).1
    · intro m h1 hm
      have := h m (by omega) h1
      rw [List.map_append] at this
      exact (grouped_append_singleton.mp (by simpa using this)).2
  · rintro ⟨hc, hp⟩ m hm h1
    rw [List.map_append]
    have hg := hc m hm h1
    have hcond := hp m h1 (by omega)
    simpa using grouped_append_singleton.mpr ⟨hg, hcond⟩

/-- All rows can be inserted in sequence exactly when the whole row list
satisfies the adjacency invariant at every non-leaf depth. -/
theorem stepsAll_iff_contigAll (D : Nat) (rows : List (List β)) :
    ∀ (R : List (List β)), (∀ s ∈ R, s.length = D) → (∀ s ∈ rows, s.length = D) →
    ContigAll D R →
    (StepsAll R rows ↔ ContigAll D (R ++ rows)) := by
  induction rows with
  | nil =>
    intro R hR _ hcR
    rw [List.append_nil]
    constructor
    · intro _
      exact hcR
    · intro _
      rw [StepsAll]
      trivial
  | cons r rs ih =>
    intro R hR hrows hcR
    have hr : r.length = D := hrows r (List.mem_cons_self r rs)
    have hrs : ∀ s ∈ rs, s.length = D := fun s hs => hrows s (List.mem_cons_of_mem r hs)
    have hRr : ∀ s ∈ R ++ [r], s.length = D := by
      intro s hs
      rcases List.mem_append.mp hs with h | h
      · exact hR s h
      · simp at h
        subst h
        exact hr
    have hSl : ∀ s ∈ R, s.length = r.length := fun s hs => by rw [hR s hs, hr]
    have hstep := stepOK_iff_prefCondAll r R hSl
    have hpca : PrefCondAll R r ↔ ∀ m, 1 ≤ m → m < D → ((r.take m ∉ R.map (List.take m)) ∨
        ((R.map (List.take m)).getLast? = some (r.take m))) := by
      rw [PrefCondAll, hr]
    rw [StepsAll]
    constructor
    · rintro ⟨hso, hsteps⟩
      have hpc := hstep.mp hso
      have hcRr : ContigAll D (R ++ [r]) := (contigAll_snoc D R r hr).mpr ⟨hcR, hpc⟩
      have := (ih (R ++ [r]) hRr hrs hcRr).mp hsteps
      rwa [List.append_assoc, List.singleton_append] at this
    · intro hc
      have hcRr : ContigAll D (R ++ [r]) := by
        have htake : (R ++ r :: rs).take (R.length + 1) = R ++ [r] := by
          rw [List.take_append]
          simp
        rw [← htake]
        exact contigAll_take D _ hc (R.length + 1)
      have hpc := (contigAll_snoc D R r hr).mp hcRr |>.2
      refine ⟨hstep.mpr hpc, ?_⟩
      apply (ih (R ++ [r]) hRr hrs hcRr).mpr
      rwa [List.append_assoc, List.singleton_append]

end Bridge2

/-! ## Success of tree-to-level conversion -/

section TreeToLevelOk
variable {β : Type} [DecidableEq β]

theorem contigAll_nil (D : Nat) : ContigAll D ([] : List (List β)) := by
  intro m _ _
  simp only [List.map_nil]
  exact Grouped.nil

/-- The builder succeeds exactly on row lists satisfying the adjacency
invariant, and then produces the reference tree. -/
theorem buildTreeCore_iff (D : Nat) (rows : List (List β))
    (hrows : ∀ r ∈ rows, r.length = D) (hD : 2 ≤ D) :
    ((buildTreeCore D rows).isOk = true ↔ ContigAll D rows) ∧
    (ContigAll D rows → buildTreeCore D rows = .ok (specTree (D-1) rows)) := by
  have hiff := stepsAll_iff_contigAll D rows [] (by simp) hrows (contigAll_nil D)
  simp only [List.nil_append] at hiff
  obtain ⟨hA, hB⟩ := buildTreeCore_spec D rows hrows hD
  constructor
  · constructor
    · intro hok
      by_contra hnc
      have := hB (fun hs => hnc (hiff.mp hs))
      rw [this] at hok
      cases hok
    · intro hc
      rw [hA (hiff.mpr hc)]
      rfl
  · intro hc
    exact hA (hiff.mpr hc)

theorem nodup_heads_of_len_one {S : List (List β)} (hl : ∀ s ∈ S, s.length = 1)
    (hnd : S.Nodup) : (S.filterMap List.head?).Nodup := by
  induction S with
  | nil => simp
  | cons s S' ih =>
    obtain ⟨a, ha⟩ : ∃ a, s = [a] := by
      rcases s with _ | ⟨a, t⟩
      · have := hl [] (List.mem_cons_self _ _)
        simp at this
      · have := hl (a :: t) (List.mem_cons_self _ _)
        simp at this
        exact ⟨a, by rw [this]⟩
    subst ha
    rcases List.nodup_cons.mp hnd with ⟨hnm, hnd'⟩
    simp only [List.filterMap_cons, List.head?_cons]
    refine List.nodup_cons.mpr ⟨?_, ih (fun x hx => hl x (List.mem_cons_of_mem _ hx)) hnd'⟩
    intro hmem
    obtain ⟨s', hs', hh⟩ := List.mem_filterMap.mp hmem
    have : s' = [a] := by
      have hls' := hl s' (List.mem_cons_of_mem _ hs')
      rcases s' with _ | ⟨b, t'⟩
      · simp at hh
      · simp only [List.length_cons] at hls'
        have : t' = [] := by
          apply List.eq_nil_of_length_eq_zero
          omega
        subst this
        simp at hh
        rw [hh]
    exact hnm (this ▸ hs')

theorem nodup_group_tails {S : List (List β)} {v : β} (hnd : S.Nodup) :
    ((S.filter (fun s => s.head? = some v)).map List.tail).Nodup := by
  apply List.Nodup.map_on ?_ (hnd.filter _)
  intro x hx y hy hxy
  obtain ⟨_, hxh⟩ := List.mem_filter.mp hx
  obtain ⟨_, hyh⟩ := List.mem_filter.mp hy
  simp only [decide_eq_true_eq] at hxh hyh
  rcases x with _ | ⟨a, tx⟩
  · simp at hxh
  rcases y with _ | ⟨b, ty⟩
  · simp at hyh
  simp only [List.head?_cons, Option.some.injEq] at hxh hyh
  simp only [List.tail_cons] at hxy
  rw [hxh, hyh, hxy]

theorem treeToLevelL_ok {ics : Option (List Unit)} {depth : Nat}
    (cs' : List (β × PTree β))
    (h : ∀ p ∈ cs', ∃ l, treeToLevel ics p.2 (depth+1) = .ok l) :
    ∃ ls, treeToLevelL ics cs' depth = .ok ls := by
  induction cs' with
  | nil => exact ⟨[], rfl⟩
  | cons p rest ih =>
    obtain ⟨l, hl⟩ := h p (List.mem_cons_self _ _)
    obtain ⟨ls, hls⟩ := ih (fun q hq => h q (List.mem_cons_of_mem _ hq))
    obtain ⟨k, c⟩ := p
    refine ⟨l :: ls, ?_⟩
    rw [treeToLevelL, hl]
    rw [except_bind_ok, hls, except_bind_ok]
    rfl

/-- Conversion of a reference tree to levels succeeds when the rows are
duplicate-free and the constructor list covers every depth reached. -/
theorem treeToLevel_specTree_ok (cs : List Unit) :
    ∀ (fuel : Nat) (S : List (List β)) (depth : Nat),
    (∀ s ∈ S, s.length = fuel + 1) → S.Nodup → depth + fuel < cs.length →
    ∃ lvl, treeToLevel (some cs) (specTree fuel S) depth = .ok lvl := by
  intro fuel
  induction fuel with
  | zero =>
    intro S depth hlen hnd hdepth
    rw [specTree_zero, treeToLevel]
    have hnd' : (S.filterMap List.head?).Nodup := nodup_heads_of_len_one hlen hnd
    rw [getIndex, if_pos (by omega), mkIndex, if_pos hnd', except_bind_ok]
    exact ⟨_, rfl⟩
  | succ fuel ih =>
    intro S depth hlen hnd hdepth
    rw [specTree_succ, treeToLevel]
    have hch : ∀ p ∈ (firstKeys (S.filterMap List.head?)).map
        (fun k => (k, specTree fuel ((S.filter (fun s => s.head? = some k)).map List.tail))),
        ∃ l, treeToLevel (some cs) p.2 (depth+1) = .ok l := by
      intro p hp
      obtain ⟨k, hk, hpe⟩ := List.mem_map.mp hp
      subst hpe
      apply ih
      · intro s hs
        obtain ⟨s', hs'm, hs'e⟩ := List.mem_map.mp hs
        have := hlen s' (List.mem_filter.mp hs'm).1
        subst hs'e
        simp only [List.length_tail]
        omega
      · exact nodup_group_tails hnd
      · omega
    obtain ⟨ls, hls⟩ := treeToLevelL_ok _ hch
    rw [hls, except_bind_ok]
    have hfst : ((firstKeys (S.filterMap List.head?)).map
        (fun k => (k, specTree fuel ((S.filter (fun s => s.head? = some k)).map List.tail)))).map
          Prod.fst = firstKeys (S.filterMap List.head?) := by
      rw [List.map_map]
      have hcomp : (Prod.fst ∘ fun k =>
          (k, specTree fuel ((S.filter (fun s => s.head? = some k)).map List.tail))) =
          (id : β → β) := rfl
      rw [hcomp, List.map_id]
    rw [hfst]
    rw [getIndex, if_pos (by omega), mkIndex,
      if_pos (firstKeys_nodup _), except_bind_ok]
    exact ⟨_, rfl⟩

end TreeToLevelOk

/-! ## End-to-end pipeline success and failure -/

section PipelineSpec
variable {β : Type} [DecidableEq β]

/-- `_from_type_blocks` on valid inputs: succeeds exactly on
adjacency-satisfying duplicate-free rows, owning the given blocks as the
valid cache. -/
theorem fromTypeBlocks_spec (b : Blocks β) (cs : List Unit)
    (hD : 2 ≤ b.width) (hcs : cs.length = b.width)
    (hrows : ∀ r ∈ b.rows, r.length = b.width) (hnd : b.rows.Nodup) :
    (ContigAll b.width b.rows →
       ∃ lvl, fromTypeBlocks b (some cs) = .ok ⟨lvl, some b, false⟩) ∧
    (¬ ContigAll b.width b.rows → (fromTypeBlocks b (some cs)).isOk = false) := by
  obtain ⟨hiff, hok⟩ := buildTreeCore_iff b.width b.rows hrows hD
  have hguard : fromTypeBlocks b (some cs) = (do
      let t ← buildTreeCore b.width b.rows
      let lvl ← treeToLevel (some cs) t 0
      pure (⟨lvl, some b, false⟩ : Hier β)) := by
    rw [fromTypeBlocks, if_neg (by omega), if_neg (by simp [hcs])]
  constructor
  · intro hc
    obtain ⟨lvl, hlvl⟩ := treeToLevel_specTree_ok cs (b.width - 1) b.rows 0
      (fun s hs => by rw [hrows s hs]; omega) hnd (by omega)
    refine ⟨lvl, ?_⟩
    rw [hguard, hok hc, except_bind_ok, hlvl, except_bind_ok]
    rfl
  · intro hnc
    have hfail : (buildTreeCore b.width b.rows).isOk = false := by
      by_contra hcon
      have : (buildTreeCore b.width b.rows).isOk = true := by
        cases hx : (buildTreeCore b.width b.rows).isOk
        · exact absurd hx hcon
        · rfl
      exact hnc (hiff.mp this)
    obtain ⟨e, he⟩ := exists_error_of_not_isOk hfail
    rw [hguard, he, except_bind_error]
    rfl

end PipelineSpec

/-! ## Well-formed level trees -/

section WFLevel
variable {β : Type} [DecidableEq β]

/-- Well-formedness of a level tree of depth `D`: the invariants the
spec states for `Level` — nonempty duplicate-free local indices, one
child per label, and uniform depth across all branches. -/
inductive WF : Nat → Level β → Prop where
  | leaf : ∀ (ls : List β), ls ≠ [] → ls.Nodup → WF 1 (.leaf ls)
  | node : ∀ (D : Nat) (cs : List (β × Level β)), cs ≠ [] →
      (cs.map Prod.fst).Nodup → (∀ p ∈ cs, WF D p.2) → WF (D+1) (.node cs)

theorem WF.height_eq {D : Nat} {t : Level β} (h : WF D t) : t.height = D := by
  induction h with
  | leaf ls _ _ => rw [Level.height]
  | node D cs hne _ hwf ih =>
    rcases cs with _ | ⟨c, rest⟩
    · exact absurd rfl hne
    · rw [Level.height]
      rw [ih c (List.mem_cons_self _ _)]
      omega

theorem WF.rows_length {D : Nat} {t : Level β} (h : WF D t) :
    ∀ r ∈ t.rows, r.length = D := by
  induction h with
  | leaf ls _ _ =>
    intro r hr
    rw [Level.rows_leaf] at hr
    obtain ⟨a, _, ha⟩ := List.mem_map.mp hr
    rw [← ha]
    rfl
  | node D cs _ _ hwf ih =>
    intro r hr
    rw [Level.rows_node] at hr
    obtain ⟨p, hp, hrp⟩ := List.mem_flatMap.mp hr
    obtain ⟨r', hr', hre⟩ := List.mem_map.mp hrp
    rw [← hre]
    simp only [List.length_cons]
    rw [ih p hp r' hr']

theorem WF.rows_ne_nil {D : Nat} {t : Level β} (h : WF D t) : t.rows ≠ [] := by
  induction h with
  | leaf ls hne _ =>
    rw [Level.rows_leaf]
    simpa using hne
  | node D cs hne _ hwf ih =>
    rcases cs with _ | ⟨⟨k, c⟩, rest⟩
    · exact absurd rfl hne
    · rw [Level.rows_node]
      simp only [List.flatMap_cons]
      intro hcon
      rcases List.append_eq_nil.mp hcon with ⟨h1, _⟩
      exact ih ⟨k, c⟩ (List.mem_cons_self _ _) (by simpa using h1)

theorem nodup_keyed_rows (cs : List (β × Level β))
    (hkeys : (cs.map Prod.fst).Nodup)
    (hch : ∀ p ∈ cs, p.2.rows.Nodup) :
    (cs.flatMap (fun p => p.2.rows.map (p.1 :: ·))).Nodup := by
  induction cs with
  | nil => simp
  | cons p rest ih =>
    obtain ⟨k, c⟩ := p
    simp only [List.flatMap_cons]
    rw [List.nodup_append]
    refine ⟨?_, ?_, ?_⟩
    · apply List.Nodup.map ?_ (hch (k, c) (List.mem_cons_self _ _))
      intro a b hab
      exact (List.cons.injEq .. ▸ hab).2
    · apply ih
      · exact (List.nodup_cons.mp (by simpa using hkeys)).2
      · exact fun q hq => hch q (List.mem_cons_of_mem _ hq)
    · intro x hx hx2
      obtain ⟨r1, _, he1⟩ := List.mem_map.mp hx
      obtain ⟨q, hq, hq2⟩ := List.mem_flatMap.mp hx2
      obtain ⟨r2, _, he2⟩ := List.mem_map.mp hq2
      rw [← he1] at he2
      have hkq : q.1 = k := by
        have := List.cons.injEq .. ▸ he2
        exact this.1
      have hkmem : k ∈ rest.map Prod.fst := by
        rw [List.mem_map]
        exact ⟨q, hq, hkq⟩
      exact (List.nodup_cons.mp (by simpa using hkeys)).1 hkmem

theorem WF.rows_nodup {D : Nat} {t : Level β} (h : WF D t) : t.rows.Nodup := by
  induction h with
  | leaf ls _ hnd =>
    rw [Level.rows_leaf]
    apply List.Nodup.map ?_ hnd
    intro a b hab
    exact (List.cons.injEq .. ▸ hab).1
  | node D cs _ hkeys hwf ih =>
    rw [Level.rows_node]
    exact nodup_keyed_rows cs hkeys ih

end WFLevel

/-! ## Cache-consistency of a hierarchy state -/

section CacheOKSec
variable {β : Type} [DecidableEq β]

/-- A hierarchy state as reachable from the constructors: either the
cache is flagged stale, or it is the materialization of the tree. -/
def CacheOK (h : Hier β) : Prop :=
  h.recache = true ∨ h.blocks = some h.levels.toBlocks

theorem blocksOf_cacheOK {h : Hier β} (hc : CacheOK h) :
    blocksOf h = h.levels.toBlocks := by
  rw [blocksOf, ensure]
  cases hr : h.recache
  · rcases hc with hc | hc
    · rw [hc] at hr
      cases hr
    · rw [if_neg (by simp), hc]
      rfl
  · rw [if_pos rfl]
    rfl

theorem ensure_levels (h : Hier β) : (ensure h).levels = h.levels := by
  rw [ensure]
  cases hr : h.recache
  · rw [if_neg (by simp)]
  · rw [if_pos rfl]
    rfl

theorem ensure_blocks {h : Hier β} (hc : CacheOK h) :
    (ensure h).blocks = some h.levels.toBlocks := by
  rw [ensure]
  cases hr : h.recache
  · rcases hc with hc | hc
    · rw [hc] at hr
      cases hr
    · rw [if_neg (by simp), hc]
  · rw [if_pos rfl]
    rfl

end CacheOKSec

section ClaimsEasy
variable {γ : Type} [DecidableEq γ]

theorem except_pure_bind {ε α γ' : Type} (a : α) (f : α → Except ε γ') :
    ((pure a : Except ε α) >>= f) = f a := rfl

/-- Any builder tree fails conversion when the constructor sequence is
empty: the first constructor lookup raises IndexError. -/
theorem treeToLevel_nil_ctors (t : PTree γ) :
    ∀ d, (treeToLevel (some ([] : List Unit)) t d).isOk = false := by
  induction t using PTree.indOn with
  | hl ls =>
    intro d
    rw [treeToLevel, getIndex, if_neg (by simp)]
    rfl
  | hb cs ih =>
    intro d
    rw [treeToLevel]
    rcases cs with _ | ⟨⟨k, c⟩, rest⟩
    · rw [treeToLevelL, except_pure_bind]
      have hgi : getIndex (some ([] : List Unit))
          (([] : List (γ × PTree γ)).map Prod.fst) d = .error (.ctorIndex d) := by
        rw [getIndex, if_neg (by simp)]
      rw [hgi, except_bind_error]
      rfl
    · rw [treeToLevelL]
      obtain ⟨e, he⟩ := exists_error_of_not_isOk (ih (k, c) (List.mem_cons_self _ _) (d+1))
      rw [he, except_bind_error, except_bind_error]
      rfl

/-- C10: `from_labels` applied to an empty iterable of labels does not
raise: it returns the empty hierarchy, of length 0, while a non-empty
input whose first tuple is shorter than 2 is rejected — the depth
minimum applies only when at least one label is present. -/
theorem claim_C10 (act : Bool) (tok : γ) (ics : Option (List Unit))
    (first : List γ) (rest : List (List γ)) (hshort : first.length < 2) :
    fromLabelsMain act tok ics ([] : List (List γ)) =
        .ok ⟨.leaf [], none, true⟩ ∧
    (lenOp ((⟨.leaf [], none, true⟩ : Hier (Option γ)))).1 = 0 ∧
    fromLabelsMain act tok ics (first :: rest) = .error .tooShallow := by
  refine ⟨rfl, ?_, ?_⟩
  · simp [lenOp, blocksOf, ensure, updateArrayCache, Level.toBlocks]
  · simp only [fromLabelsMain]
    rw [if_pos hshort]

theorem claim_C10_witness :
    fromLabelsMain true (0 : Nat) none ([] : List (List Nat)) =
        .ok ⟨.leaf [], none, true⟩ ∧
    (lenOp ((⟨.leaf [], none, true⟩ : Hier (Option Nat)))).1 = 0 ∧
    fromLabelsMain true (0 : Nat) none ([5] :: []) = .error .tooShallow :=
  claim_C10 true 0 none [5] [] (by decide)

/-- C5: with a non-empty labels input of depth at least 2, a per-depth
constructor sequence whose length differs from the depth makes the build
fail: a non-empty wrong-length sequence is rejected up front by the
truthiness check, and the empty sequence slips past it but fails at the
first constructor lookup. -/
theorem claim_C5 (act : Bool) (tok : γ) (cs : List Unit)
    (first : List γ) (rest : List (List γ))
    (hD : 2 ≤ first.length) (hbad : cs.length ≠ first.length) :
    (fromLabelsMain act tok (some cs) (first :: rest)).isOk = false := by
  simp only [fromLabelsMain]
  rw [if_neg (by omega)]
  rcases cs with _ | ⟨u, cs2⟩
  · rw [if_neg (by simp [ctorCountBadFL])]
    cases hgo : fromLabelsGo first.length act tok (.br [])
        (List.replicate first.length none) (first :: rest) with
    | error e =>
      rw [except_bind_error]
      rfl
    | ok t =>
      rw [except_bind_ok]
      obtain ⟨e, he⟩ := exists_error_of_not_isOk (treeToLevel_nil_ctors t 0)
      rw [he, except_bind_error]
      rfl
  · rw [if_pos (by simpa [ctorCountBadFL] using hbad)]
    rfl

theorem claim_C5_witness :
    (fromLabelsMain false (0 : Nat) (some [()]) ([1, 2] :: [[1, 3]])).isOk = false :=
  claim_C5 false 0 [()] [1, 2] [[1, 3]] (by decide) (by decide)

/-- C7: `isin` answers a boolean vector exactly as long as the
hierarchy, true at row i exactly when the flattened row i equals some
candidate whose length matches the depth (candidates of any other
length never match). -/
theorem claim_C7 {β : Type} [DecidableEq β] (h : Hier β) (cands : List (List β))
    (hc : CacheOK h) :
    (isinOp h cands).1.length = (lenOp h).1 ∧
    ∀ (i : Nat) (r : List β), (valuesOp h).1[i]? = some r →
      (isinOp h cands).1[i]? =
        some (decide (∃ s ∈ cands, s.length = h.levels.height ∧ s = r)) := by
  have hb : blocksOf h = h.levels.toBlocks := blocksOf_cacheOK hc
  have hbu : (ensure h).blocks.getD ⟨0, []⟩ = h.levels.toBlocks := hb
  simp only [isinOp, lenOp, valuesOp, blocksOf, hbu, Level.toBlocks]
  constructor
  · split
    · rw [List.length_replicate]
    · rw [List.length_map]
  · intro i r hr
    have hilt : i < h.levels.rows.length := by
      by_contra hge
      rw [List.getElem?_eq_none (by omega)] at hr
      cases hr
    have hri : h.levels.rows[i]? = some r := hr
    split
    · rename_i hemp
      rw [List.getElem?_replicate, if_pos hilt]
      have hnone : ∀ s ∈ cands, ¬ s.length = h.levels.height := by
        intro s hs hlen
        have : s ∈ cands.filter (fun s => decide (s.length = h.levels.height)) :=
          List.mem_filter.mpr ⟨hs, by simpa using hlen⟩
        rw [List.isEmpty_iff.mp hemp] at this
        cases this
      have hdec : decide (∃ s ∈ cands, s.length = h.levels.height ∧ s = r) = false := by
        simp only [decide_eq_false_iff_not]
        rintro ⟨s, hs, hlen, _⟩
        exact hnone s hs hlen
      rw [hdec]
    · rename_i hemp
      rw [List.getElem?_map, hri]
      simp only [Option.map_some']
      congr 1
      rw [decide_eq_decide, List.mem_filter]
      constructor
      · rintro ⟨hmem, hlen⟩
        exact ⟨r, hmem, by simpa using hlen, rfl⟩
      · rintro ⟨s, hs, hlen, hsr⟩
        subst hsr
        exact ⟨hs, by simpa using hlen⟩

theorem claim_C7_witness :
    (isinOp (⟨.node [(0, .leaf [1, 2])], none, true⟩ : Hier Nat)
        [[0, 1], [3]]).1.length =
      (lenOp (⟨.node [(0, .leaf [1, 2])], none, true⟩ : Hier Nat)).1 ∧
    ∀ (i : Nat) (r : List Nat),
      (valuesOp (⟨.node [(0, .leaf [1, 2])], none, true⟩ : Hier Nat)).1[i]? =
          some r →
      (isinOp (⟨.node [(0, .leaf [1, 2])], none, true⟩ : Hier Nat)
          [[0, 1], [3]]).1[i]? =
        some (decide (∃ s ∈ ([[0, 1], [3]] : List (List Nat)), s.length =
          (Level.node [((0 : Nat), Level.leaf [1, 2])]).height ∧ s = r)) :=
  claim_C7 ⟨.node [(0, .leaf [1, 2])], none, true⟩ [[0, 1], [3]] (Or.inl rfl)

/-- C6 counterexample: `__contains__` on a stale hierarchy answers from
the levels and returns with the state unchanged — the stale flag still
set and the outdated cache unrebuilt — so a read path does return a
result while the cache is stale. -/
theorem claim_C6_counterexample :
    (containsOp (⟨.node [(0, .leaf [1])], some ⟨9, [[7]]⟩, true⟩ : Hier Nat)
        [0, 1]).1 = true ∧
    (containsOp (⟨.node [(0, .leaf [1])], some ⟨9, [[7]]⟩, true⟩ : Hier Nat)
        [0, 1]).2 = ⟨.node [(0, .leaf [1])], some ⟨9, [[7]]⟩, true⟩ := by
  constructor
  · simp [containsOp]
  · rfl

/-- C6 (amended): the cache-consuming reads (`__len__`, `values`,
`isin`) do rebuild a stale cache before producing their result, but
`__contains__` bypasses the cache entirely: it answers from the levels
tree and leaves the hierarchy state, stale flag included, untouched. -/
theorem claim_C6 {β : Type} [DecidableEq β] (h : Hier β) (r : List β)
    (cands : List (List β)) (hst : h.recache = true) :
    (lenOp h).2 = updateArrayCache h ∧
    (valuesOp h).2 = updateArrayCache h ∧
    (isinOp h cands).2 = updateArrayCache h ∧
    (updateArrayCache h).recache = false ∧
    (updateArrayCache h).blocks = some h.levels.toBlocks ∧
    containsOp h r = (decide (r ∈ h.levels.rows), h) := by
  have he : ensure h = updateArrayCache h := by rw [ensure, if_pos hst]
  refine ⟨he, he, ?_, rfl, rfl, rfl⟩
  simp only [isinOp]
  split
  · exact he
  · exact he

theorem claim_C6_witness :
    (lenOp (⟨.leaf [3], none, true⟩ : Hier Nat)).2 =
        updateArrayCache ⟨.leaf [3], none, true⟩ ∧
    (valuesOp (⟨.leaf [3], none, true⟩ : Hier Nat)).2 =
        updateArrayCache ⟨.leaf [3], none, true⟩ ∧
    (isinOp (⟨.leaf [3], none, true⟩ : Hier Nat) []).2 =
        updateArrayCache ⟨.leaf [3], none, true⟩ ∧
    (updateArrayCache (⟨.leaf [3], none, true⟩ : Hier Nat)).recache = false ∧
    (updateArrayCache (⟨.leaf [3], none, true⟩ : Hier Nat)).blocks =
        some (Level.leaf [3]).toBlocks ∧
    containsOp (⟨.leaf [3], none, true⟩ : Hier Nat) [5] =
      (decide ([5] ∈ (Level.leaf [(3 : Nat)]).rows), ⟨.leaf [3], none, true⟩) :=
  claim_C6 ⟨.leaf [3], none, true⟩ [5] [] rfl

end ClaimsEasy

section ClaimC2
variable {β : Type} [DecidableEq β]

/-- The stack walk maps `dropLeafStep` over the children, keys kept. -/
theorem dropLeafStepL_eq (cs : List (β × Level β)) :
    Level.dropLeafStepL cs = cs.map (fun p => (p.1, p.2.dropLeafStep)) := by
  induction cs with
  | nil => rw [Level.dropLeafStepL]; rfl
  | cons p rest ih =>
    obtain ⟨k, c⟩ := p
    rw [Level.dropLeafStepL, ih]
    rfl

theorem WF_zero (t : Level β) : ¬ WF 0 t := by
  intro h
  cases h

theorem WF_one_leaf {t : Level β} (h : WF 1 t) :
    ∃ ls, t = .leaf ls ∧ ls ≠ [] ∧ ls.Nodup := by
  cases h with
  | leaf ls hne hnd => exact ⟨ls, rfl, hne, hnd⟩
  | node D cs hne hnd hwf =>
    rcases cs with _ | ⟨p, rest⟩
    · exact absurd rfl hne
    · exact absurd (hwf p (List.mem_cons_self _ _)) (WF_zero p.2)

theorem WF_ge_two_node {D : Nat} {t : Level β} (h : WF D t) (hD : 2 ≤ D) :
    ∃ cs, t = .node cs ∧ cs ≠ [] ∧ (cs.map Prod.fst).Nodup ∧
      ∀ p ∈ cs, WF (D - 1) p.2 := by
  cases h with
  | leaf ls hne hnd => omega
  | node D' cs hne hnd hwf =>
    refine ⟨cs, rfl, hne, hnd, ?_⟩
    simpa using hwf

/-- One leaf-dropping pass on a well-formed tree of depth at least 2:
the depth shrinks by one and the outermost index is untouched (the
level removed is the innermost). -/
theorem dropLeafStep_spec {D : Nat} {t : Level β} (h : WF D t) :
    2 ≤ D → WF (D - 1) t.dropLeafStep ∧ t.dropLeafStep.indexList = t.indexList := by
  induction h with
  | leaf ls hne hnd => omega
  | node D cs hne hnd hwf ih =>
    intro hD
    rcases cs with _ | ⟨⟨k, c⟩, rest⟩
    · exact absurd rfl hne
    rcases Nat.lt_or_ge D 2 with hD2 | hD2
    · have hD1 : D = 1 := by
        rcases Nat.eq_zero_or_pos D with h0 | h1
        · exact absurd (h0 ▸ hwf (k, c) (List.mem_cons_self _ _)) (WF_zero c)
        · omega
      subst hD1
      obtain ⟨ls, hc, _, _⟩ := WF_one_leaf (hwf (k, c) (List.mem_cons_self _ _))
      subst hc
      rw [Level.dropLeafStep]
      exact ⟨WF.leaf _ (by simp) hnd, rfl⟩
    · obtain ⟨cs', hc, hne', _, _⟩ :=
        WF_ge_two_node (hwf (k, c) (List.mem_cons_self _ _)) hD2
      subst hc
      rw [Level.dropLeafStep]
      constructor
      · have hDe : D = (D - 1) + 1 := by omega
        rw [show D + 1 - 1 = (D - 1) + 1 from by omega]
        apply WF.node
        · rw [dropLeafStepL_eq]
          simp
        · rw [dropLeafStepL_eq, List.map_map]
          simpa using hnd
        · intro p hp
          rw [dropLeafStepL_eq] at hp
          obtain ⟨q, hq, hqe⟩ := List.mem_map.mp hp
          rw [← hqe]
          exact (ih q hq hD2).1
      · rw [Level.indexList, dropLeafStepL_eq, List.map_map]
        rfl

/-- `drop_level(-1)` collapses one leaf-drop pass; the source match on
the surviving root. -/
theorem dropLeafIter_one (t : Level β) : dropLeafIter 1 t = t.dropLeafStep := by
  rw [show (1 : Nat) = 0 + 1 from rfl, dropLeafIter]
  cases hds : t.dropLeafStep with
  | leaf ls => rfl
  | node cs =>
    show dropLeafIter 0 (Level.node cs) = Level.node cs
    rw [dropLeafIter]

/-- C2 counterexample: on the two-deep hierarchy with root keys `0, 1`
over leaves `[1]` and `[2, 3]`, a count of `-1` keeps the root keys
(`[0, 1]`) — it peels the leaf depth, not the top — while a count of
`1` keeps the leaf labels (`[1, 2, 3]`) — it peels the top, not the
leaves; the claim has the two directions swapped. -/
theorem claim_C2_counterexample :
    dropLevel (⟨.node [(0, .leaf [1]), (1, .leaf [2, 3])], none, true⟩ : Hier Nat)
        (-1) = .ok (.inl [0, 1]) ∧
    dropLevel (⟨.node [(0, .leaf [1]), (1, .leaf [2, 3])], none, true⟩ : Hier Nat)
        1 = .ok (.inl [1, 2, 3]) ∧
    ([0, 1] : List Nat) ≠ [1, 2, 3] := by
  refine ⟨?_, ?_, by decide⟩
  · rw [dropLevel, if_pos (by decide)]
    have hab : Int.natAbs (-1) = 1 := rfl
    rw [hab, dropLeafIter_one]
    rw [show (Level.node [((0 : Nat), Level.leaf [1]), (1, Level.leaf [2, 3])]).dropLeafStep
        = Level.leaf [0, 1] from by rw [Level.dropLeafStep]; rfl]
  · rw [dropLevel, if_neg (by decide), if_pos (by decide)]
    have ht : (1 : Int).toNat = 1 := rfl
    rw [ht, dropTopIter]
    rw [show mkIndex ((Level.node [((0 : Nat), Level.leaf [1]),
          (1, Level.leaf [2, 3])]).targetsList.flatMap Level.indexList)
        = .ok [1, 2, 3] from by
      simp [Level.targetsList, Level.indexList, mkIndex]]
    rw [except_bind_ok]
    rw [if_pos (by simp [Level.targetsList, Level.targetsList])]

/-- C2 (amended): on a well-formed hierarchy of depth `D ≥ 2`,
`drop_level` with negative count removes the innermost (leaf) depth —
one pass shrinks the depth by one and keeps the outermost index —
collapsing to that plain root index when `D = 2`; positive count
removes the outermost depth, the new root index being the concatenation
of the children's indices (rejected on duplicates), collapsing to it
when `D = 2`.  The peeling directions are the opposite of the
claim's. -/
theorem claim_C2 (t : Level β) (b : Option (Blocks β)) (rc : Bool) (D : Nat)
    (hwf : WF D t) (hD : 2 ≤ D) :
    t.dropLeafStep.indexList = t.indexList ∧
    WF (D - 1) t.dropLeafStep ∧
    (D = 2 → dropLevel ⟨t, b, rc⟩ (-1) = .ok (.inl t.indexList)) ∧
    (2 < D → dropLevel ⟨t, b, rc⟩ (-1) = .ok (.inr t.dropLeafStep)) ∧
    dropLevel ⟨t, b, rc⟩ 1 = (do
      let ix ← mkIndex (t.targetsList.flatMap Level.indexList)
      if D = 2 then Except.ok (Sum.inl ix)
      else Except.ok (Sum.inr (Level.node (ix.zip
        (t.targetsList.flatMap Level.targetsList))))) := by
  obtain ⟨hwf1, hidx⟩ := dropLeafStep_spec hwf hD
  refine ⟨hidx, hwf1, ?_, ?_, ?_⟩
  · intro hD2
    rw [dropLevel, if_pos (by decide)]
    have hab : Int.natAbs (-1) = 1 := rfl
    rw [hab, dropLeafIter_one]
    subst hD2
    obtain ⟨ls, hls, _, _⟩ := WF_one_leaf hwf1
    have h1 : t.indexList = ls := by
      rw [← hidx, hls, Level.indexList]
    rw [hls, h1]
  · intro h2D
    rw [dropLevel, if_pos (by decide)]
    have hab : Int.natAbs (-1) = 1 := rfl
    rw [hab, dropLeafIter_one]
    obtain ⟨cs2, hls, _, _, _⟩ := WF_ge_two_node hwf1 (by omega)
    rw [hls]
  · rw [dropLevel, if_neg (by decide), if_pos (by decide)]
    have ht : (1 : Int).toNat = 1 := rfl
    rw [ht, show (1 : Nat) = 0 + 1 from rfl, dropTopIter]
    simp only [show (⟨t, b, rc⟩ : Hier β).levels = t from rfl]
    obtain ⟨cs, htn, hcne, hknd, hch⟩ := WF_ge_two_node hwf hD
    by_cases hD2 : D = 2
    · have hemp : t.targetsList.flatMap Level.targetsList = [] := by
        rw [htn, Level.targetsList]
        rw [List.flatMap_eq_nil_iff]
        intro c hc
        obtain ⟨p, hp, hpe⟩ := List.mem_map.mp hc
        obtain ⟨ls, hpl, _, _⟩ := WF_one_leaf (by
          have := hch p hp
          rw [hD2] at this
          exact this)
        rw [← hpe, hpl, Level.targetsList]
      cases hmi : mkIndex (t.targetsList.flatMap Level.indexList) with
      | error e => rw [except_bind_error, except_bind_error]
      | ok ix =>
        rw [except_bind_ok, except_bind_ok, hemp]
        simp [hD2]
    · rw [htn]
      rcases cs with _ | ⟨p, rest⟩
      · exact absurd rfl hcne
      obtain ⟨cs2, hp2, hcne2, _, _⟩ :=
        WF_ge_two_node (hch p (List.mem_cons_self _ _)) (by omega)
      have hne2 : (Level.node (p :: rest)).targetsList.flatMap Level.targetsList ≠ [] := by
        rw [Level.targetsList]
        simp only [List.map_cons, List.flatMap_cons]
        rw [hp2, Level.targetsList]
        intro hcon
        rcases List.append_eq_nil.mp hcon with ⟨h1, _⟩
        exact hcne2 (List.map_eq_nil_iff.mp h1)
      cases hmi : mkIndex ((Level.node (p :: rest)).targetsList.flatMap Level.indexList) with
      | error e => rw [except_bind_error, except_bind_error]
      | ok ix =>
        rw [except_bind_ok, except_bind_ok]
        rw [if_neg (by rw [List.isEmpty_iff]; exact hne2), if_neg hD2, dropTopIter]

theorem claim_C2_witness :
    (Level.node [((0 : Nat), Level.leaf [1]), (1, Level.leaf [2, 3])]).dropLeafStep.indexList =
      (Level.node [((0 : Nat), Level.leaf [1]), (1, Level.leaf [2, 3])]).indexList ∧
    WF (2 - 1) (Level.node [((0 : Nat), Level.leaf [1]), (1, Level.leaf [2, 3])]).dropLeafStep ∧
    ((2 : Nat) = 2 → dropLevel (⟨.node [(0, .leaf [1]), (1, .leaf [2, 3])], none, true⟩ : Hier Nat)
        (-1) = .ok (.inl (Level.node [((0 : Nat), Level.leaf [1]), (1, Level.leaf [2, 3])]).indexList)) ∧
    ((2 : Nat) < 2 → dropLevel (⟨.node [(0, .leaf [1]), (1, .leaf [2, 3])], none, true⟩ : Hier Nat)
        (-1) = .ok (.inr (Level.node [((0 : Nat), Level.leaf [1]), (1, Level.leaf [2, 3])]).dropLeafStep)) ∧
    dropLevel (⟨.node [(0, .leaf [1]), (1, .leaf [2, 3])], none, true⟩ : Hier Nat) 1 = (do
      let ix ← mkIndex ((Level.node [((0 : Nat), Level.leaf [1]),
        (1, Level.leaf [2, 3])]).targetsList.flatMap Level.indexList)
      if (2 : Nat) = 2 then Except.ok (Sum.inl ix)
      else Except.ok (Sum.inr (Level.node (ix.zip
        ((Level.node [((0 : Nat), Level.leaf [1]),
          (1, Level.leaf [2, 3])]).targetsList.flatMap Level.targetsList))))) :=
  claim_C2 (Level.node [((0 : Nat), Level.leaf [1]), (1, Level.leaf [2, 3])]) none true 2
    (by
      refine WF.node 1 _ (by simp) (by decide) ?_
      intro p hp
      simp only [List.mem_cons, List.not_mem_nil, or_false] at hp
      rcases hp with h | h
      · subst h
        exact WF.leaf [1] (by simp) (by decide)
      · subst h
        exact WF.leaf [2, 3] (by simp) (by decide))
    (by omega)

end ClaimC2

section ClaimC3
variable {β : Type} [DecidableEq β]

theorem zip_map_fst_snd_eq {α σ : Type} (cs : List (α × σ)) :
    (cs.map Prod.fst).zip (cs.map Prod.snd) = cs := by
  induction cs with
  | nil => rfl
  | cons p rest ih => simp [ih]

/-- C3: wrapping a hierarchy under a new singleton top level and then
dropping one level from the top restores the original level tree
exactly — hence the same flattened rows, in the same order, and the
same depth. -/
theorem claim_C3 (h : Hier β) (x : β) (D : Nat)
    (hwf : WF D h.levels) (hD : 2 ≤ D) :
    ∃ lvl, dropLevel (addLevel h x) 1 = .ok (.inr lvl) ∧
      lvl.rows = h.levels.rows ∧ lvl.height = D := by
  obtain ⟨cs, htn, hcne, hknd, hch⟩ := WF_ge_two_node hwf hD
  refine ⟨h.levels, ?_, rfl, hwf.height_eq⟩
  rw [dropLevel, if_neg (by decide), if_pos (by decide)]
  have ht : (1 : Int).toNat = 1 := rfl
  rw [ht, show (1 : Nat) = 0 + 1 from rfl, dropTopIter]
  simp only [show (addLevel h x).levels = Level.node [(x, h.levels)] from rfl]
  rw [show (Level.node [(x, h.levels)]).targetsList = [h.levels] from by
    rw [Level.targetsList]; rfl]
  simp only [List.flatMap_cons, List.flatMap_nil, List.append_nil]
  rw [htn]
  rw [show (Level.node cs).indexList = cs.map Prod.fst from by rw [Level.indexList]]
  rw [show (Level.node cs).targetsList = cs.map Prod.snd from by rw [Level.targetsList]]
  rw [show mkIndex (cs.map Prod.fst) = .ok (cs.map Prod.fst) from by
    rw [mkIndex, if_pos hknd]]
  rw [except_bind_ok]
  have hne : (cs.map Prod.snd).isEmpty = false := by
    rcases cs with _ | ⟨p, rest⟩
    · exact absurd rfl hcne
    · rfl
  rw [if_neg (by rw [hne]; simp), dropTopIter, zip_map_fst_snd_eq]

theorem claim_C3_witness :
    ∃ lvl, dropLevel (addLevel
        (⟨.node [(0, .leaf [1]), (1, .leaf [2, 3])], none, true⟩ : Hier Nat) 7) 1 =
          .ok (.inr lvl) ∧
      lvl.rows = (⟨.node [(0, .leaf [1]), (1, .leaf [2, 3])], none,
        true⟩ : Hier Nat).levels.rows ∧ lvl.height = 2 :=
  claim_C3 ⟨.node [(0, .leaf [1]), (1, .leaf [2, 3])], none, true⟩ 7 2
    (by
      refine WF.node 1 _ (by simp) (by decide) ?_
      intro p hp
      simp only [List.mem_cons, List.not_mem_nil, or_false] at hp
      rcases hp with hp | hp
      · subst hp
        exact WF.leaf [1] (by simp) (by decide)
      · subst hp
        exact WF.leaf [2, 3] (by simp) (by decide))
    (by omega)

end ClaimC3

section ClaimC8
variable {beta : Type} [DecidableEq beta]

/-- The circular row shift is a permutation of the rows. -/
theorem shiftRowsWrap_perm {alpha : Type} (s : Int) (rows : List (List alpha)) :
    (shiftRowsWrap s rows).Perm rows := by
  simp only [shiftRowsWrap]
  by_cases hn : rows.length = 0
  · rw [if_pos hn]
  · rw [if_neg hn]
    have h1 : (rows.drop (rows.length - (s % (rows.length : Int)).toNat) ++
        rows.take (rows.length - (s % (rows.length : Int)).toNat)).Perm
        (rows.take (rows.length - (s % (rows.length : Int)).toNat) ++
         rows.drop (rows.length - (s % (rows.length : Int)).toNat)) :=
      List.perm_append_comm
    rw [List.take_append_drop] at h1
    exact h1

/-- The circular shift realizes the index formula of the claim: row `i`
of the shifted rows is original row `(i - s) mod n`. -/
theorem shiftRowsWrap_getElem? {alpha : Type} (s : Int) (rows : List (List alpha)) (i : Nat)
    (hi : i < rows.length) :
    (shiftRowsWrap s rows)[i]? =
      rows[(((i : Int) - s) % (rows.length : Int)).toNat]? := by
  have hn : ¬ rows.length = 0 := by omega
  simp only [shiftRowsWrap, if_neg hn]
  have hnpos : (0 : Int) < (rows.length : Int) := by omega
  have hkn : 0 ≤ s % (rows.length : Int) := Int.emod_nonneg s (by omega)
  have hkl : s % (rows.length : Int) < (rows.length : Int) :=
    Int.emod_lt_of_pos s hnpos
  have hs_mod : s % (rows.length : Int) = (((s % (rows.length : Int)).toNat : Int)) := by
    omega
  have hmod_eq : ((i : Int) - s) % (rows.length : Int) =
      ((i : Int) - ((s % (rows.length : Int)).toNat : Int)) % (rows.length : Int) := by
    conv_lhs => rw [Int.sub_emod]
    conv_rhs => rw [Int.sub_emod]
    rw [← hs_mod, Int.emod_emod_of_dvd s (dvd_refl _)]
  rw [hmod_eq]
  set k := (s % (rows.length : Int)).toNat with hkdef
  have hk_lt : k < rows.length ∨ k = rows.length := by omega
  have hklen : k ≤ rows.length := by omega
  have hdlen : (rows.drop (rows.length - k)).length = k := by
    rw [List.length_drop]
    omega
  by_cases hik : i < k
  · have hj : (((i : Int) - (k : Int)) % (rows.length : Int)) =
        ((i : Int) - (k : Int) + (rows.length : Int)) := by
      have h1 : ((i : Int) - (k : Int) + (rows.length : Int)) % (rows.length : Int) =
          ((i : Int) - (k : Int)) % (rows.length : Int) := by
        rw [Int.add_emod, Int.emod_self, add_zero, Int.emod_emod_of_dvd _ (dvd_refl _)]
      rw [← h1, Int.emod_eq_of_lt (by omega) (by omega)]
    rw [hj]
    have hjn : ((i : Int) - (k : Int) + (rows.length : Int)).toNat =
        (rows.length - k) + i := by omega
    rw [hjn]
    rw [List.getElem?_append_left (by omega)]
    rw [List.getElem?_drop]
  · have hj : (((i : Int) - (k : Int)) % (rows.length : Int)) = ((i : Int) - (k : Int)) := by
      rw [Int.emod_eq_of_lt (by omega) (by omega)]
    rw [hj]
    have hjn : ((i : Int) - (k : Int)).toNat = i - k := by omega
    rw [hjn]
    rw [List.getElem?_append_right (by omega)]
    rw [hdlen, List.getElem?_take_of_lt (by omega)]

/-- C8 counterexample: the circular shift itself matches the claim
(`roll(1)` on rows `r0, r1, r2` shifts to `r2, r0, r1`), but `roll`
rebuilds the hierarchy through the same adjacency validation as
construction, and the shifted order can violate it: here the group with
key `1` is torn apart and `roll(1)` raises instead of returning the
shifted hierarchy. -/
theorem claim_C8_counterexample :
    shiftRowsWrap 1 [[0, 1], [1, 2], [1, 3]] = [[1, 3], [0, 1], [1, 2]] ∧
    rollH (⟨.node [(0, .leaf [1]), (1, .leaf [2, 3])], none, true⟩ : Hier Nat) 1 =
      .error (.adjacency 1 (some 0) 0) :=
  ⟨rfl, rfl⟩

/-- C8 (amended): `roll(s)` computes exactly the claimed circular row
shift — row `i` of the shifted rows is original row `(i - s) mod n` —
but then rebuilds a hierarchy from the shifted blocks through the
adjacency validation: it returns the shifted hierarchy (owning the
shifted blocks as valid cache) when the shifted order still groups
contiguously, and raises otherwise. -/
theorem claim_C8 {β : Type} [DecidableEq β] (h : Hier β) (s : Int) (D : Nat)
    (hwf : WF D h.levels) (hc : CacheOK h) (hD : 2 ≤ D) :
    (∀ i : Nat, i < h.levels.rows.length →
      (shiftRowsWrap s h.levels.rows)[i]? =
        h.levels.rows[(((i : Int) - s) % (h.levels.rows.length : Int)).toNat]?) ∧
    (ContigAll D (shiftRowsWrap s h.levels.rows) →
      ∃ lvl, rollH h s = .ok ⟨lvl, some ⟨D, shiftRowsWrap s h.levels.rows⟩, false⟩) ∧
    (¬ ContigAll D (shiftRowsWrap s h.levels.rows) →
      (rollH h s).isOk = false) := by
  have hbu : (ensure h).blocks.getD ⟨0, []⟩ = h.levels.toBlocks := blocksOf_cacheOK hc
  have hhe : h.levels.height = D := hwf.height_eq
  have hperm := shiftRowsWrap_perm s h.levels.rows
  have hr : rollH h s = fromTypeBlocks ⟨D, shiftRowsWrap s h.levels.rows⟩
      (some (List.replicate D ())) := by
    simp only [rollH, hbu, ensure_levels, Level.toBlocks, Level.indexTypes, hhe]
  obtain ⟨hok, hfail⟩ := fromTypeBlocks_spec
    (⟨D, shiftRowsWrap s h.levels.rows⟩ : Blocks β) (List.replicate D ())
    (by simpa using hD) (by simp)
    (by
      intro r hr2
      have hmem : r ∈ h.levels.rows := hperm.mem_iff.mp hr2
      exact hwf.rows_length r hmem)
    (hperm.nodup_iff.mpr hwf.rows_nodup)
  refine ⟨?_, ?_, ?_⟩
  · intro i hi
    exact shiftRowsWrap_getElem? s h.levels.rows i hi
  · intro hct
    rw [hr]
    exact hok hct
  · intro hnc
    rw [hr]
    exact hfail hnc

theorem claim_C8_witness :
    (∀ i : Nat, i < (⟨.node [(0, .leaf [1]), (1, .leaf [2, 3])], none,
        true⟩ : Hier Nat).levels.rows.length →
      (shiftRowsWrap 1 (⟨.node [(0, .leaf [1]), (1, .leaf [2, 3])], none,
          true⟩ : Hier Nat).levels.rows)[i]? =
        (⟨.node [(0, .leaf [1]), (1, .leaf [2, 3])], none,
          true⟩ : Hier Nat).levels.rows[(((i : Int) - 1) %
            ((⟨.node [(0, .leaf [1]), (1, .leaf [2, 3])], none,
              true⟩ : Hier Nat).levels.rows.length : Int)).toNat]?) ∧
    (ContigAll 2 (shiftRowsWrap 1 (⟨.node [(0, .leaf [1]), (1, .leaf [2, 3])], none,
        true⟩ : Hier Nat).levels.rows) →
      ∃ lvl, rollH (⟨.node [(0, .leaf [1]), (1, .leaf [2, 3])], none,
          true⟩ : Hier Nat) 1 =
        .ok ⟨lvl, some ⟨2, shiftRowsWrap 1 (⟨.node [(0, .leaf [1]), (1, .leaf [2, 3])],
          none, true⟩ : Hier Nat).levels.rows⟩, false⟩) ∧
    (¬ ContigAll 2 (shiftRowsWrap 1 (⟨.node [(0, .leaf [1]), (1, .leaf [2, 3])], none,
        true⟩ : Hier Nat).levels.rows) →
      (rollH (⟨.node [(0, .leaf [1]), (1, .leaf [2, 3])], none,
        true⟩ : Hier Nat) 1).isOk = false) :=
  claim_C8 ⟨.node [(0, .leaf [1]), (1, .leaf [2, 3])], none, true⟩ 1 2
    (by
      refine WF.node 1 _ (by simp) (by decide) ?_
      intro p hp
      simp only [List.mem_cons, List.not_mem_nil, or_false] at hp
      rcases hp with hp | hp
      · subst hp
        exact WF.leaf [1] (by simp) (by decide)
      · subst hp
        exact WF.leaf [2, 3] (by simp) (by decide))
    (Or.inl rfl) (by omega)

end ClaimC8

section ClaimC4

/-- C4: rows in which a non-leaf-depth label reopens a closed group
under the same parent fail the build's adjacency validation rather
than producing a hierarchy; in particular the label sequence
`[(A,1,x), (B,1,y), (A,2,z)]` (here `A = 0`, `B = 1`) raises an
adjacency error citing the offending label `A` at depth 0 with the
expected predecessor `B`. -/
theorem claim_C4 {β : Type} [DecidableEq β] (b : Blocks β) (cs : List Unit)
    (hD : 2 ≤ b.width) (hcs : cs.length = b.width)
    (hrows : ∀ r ∈ b.rows, r.length = b.width) (hnd : b.rows.Nodup)
    (hnc : ¬ ContigAll b.width b.rows) :
    (fromTypeBlocks b (some cs)).isOk = false ∧
    fromLabelsMain false (0 : Nat) none [[0, 1, 10], [1, 1, 11], [0, 2, 12]] =
      .error (.adjacency (some 0) (some (some 1)) 0) :=
  ⟨(fromTypeBlocks_spec b cs hD hcs hrows hnd).2 hnc, rfl⟩

theorem claim_C4_witness :
    (fromTypeBlocks (⟨2, [[0, 1], [1, 2], [0, 3]]⟩ : Blocks Nat)
      (some [(), ()])).isOk = false ∧
    fromLabelsMain false (0 : Nat) none [[0, 1, 10], [1, 1, 11], [0, 2, 12]] =
      .error (.adjacency (some 0) (some (some 1)) 0) :=
  claim_C4 ⟨2, [[0, 1], [1, 2], [0, 3]]⟩ [(), ()] (by decide) (by decide)
    (by decide) (by decide) (by decide)

end ClaimC4

section ClaimC9
variable {γ : Type} [DecidableEq γ]

/-- With the continuation token inactive its value is never consulted:
one row inserts identically for any two token values. -/
theorem insertRowFL_tok_irrel (D : Nat) (tok tok2 : γ) :
    ∀ (r : List γ) (t : PTree (Option γ)) (d : Nat) (obs : List (Option γ)),
      insertRowFL D false tok t r d obs = insertRowFL D false tok2 t r d obs := by
  intro r
  induction r with
  | nil =>
    intro t d obs
    rfl
  | cons v rest ih =>
    intro t d obs
    simp only [insertRowFL, Bool.false_eq_true, false_and, if_false, ih]

/-- Row-fold version of the token irrelevance. -/
theorem fromLabelsGo_tok_irrel (D : Nat) (tok tok2 : γ) :
    ∀ (rs : List (List γ)) (t : PTree (Option γ)) (obs : List (Option γ)),
      fromLabelsGo D false tok t obs rs = fromLabelsGo D false tok2 t obs rs := by
  intro rs
  induction rs with
  | nil =>
    intro t obs
    rfl
  | cons r rs ih =>
    intro t obs
    rw [fromLabelsGo, fromLabelsGo, insertRowFL_tok_irrel D tok tok2 r t 0 obs]
    cases insertRowFL D false tok2 t r 0 obs with
    | error e => rfl
    | ok p =>
      obtain ⟨t1, o1⟩ := p
      exact ih t1 o1

/-- C9 counterexample: with an active continuation token, a token at
the LEAF depth is not replaced by the most recently observed leaf value
(`10` here): `observed_last` is never written at the leaf depth, so the
substitute is the per-call fresh token object itself, which surfaces as
a leaf label (modelled as `none`). -/
theorem claim_C9_counterexample :
    fromLabelsMain true (5 : Nat) none [[0, 10], [0, 5]] =
      .ok ⟨Level.node [(some 0, Level.leaf [some 10, none])], none, true⟩ ∧
    (none : Option Nat) ≠ some 10 :=
  ⟨rfl, by decide⟩

/-- C9 (amended): supplying a continuation token together with
`reorder_for_hierarchy` raises; with the token inactive no substitution
occurs (the token value is never consulted); with an active token a
component equal to the token is replaced by `observed_last` at its
depth, which holds the most recently observed value only for non-leaf
depths (at the leaf depth it still holds the initial token object) —
the concrete conjunct shows the non-leaf substitution grouping row
`[5, 11]` under the previously observed key `0`. -/
theorem claim_C9 (f : List (List γ) → List (List γ)) (tok tok2 : γ)
    (ics : Option (List Unit)) (labels : List (List γ)) :
    fromLabelsH f true true tok ics labels = .error .reorderContinuation ∧
    fromLabelsMain false tok ics labels = fromLabelsMain false tok2 ics labels ∧
    fromLabelsMain true (5 : Nat) none [[0, 10], [5, 11]] =
      .ok ⟨Level.node [(some 0, Level.leaf [some 10, some 11])], none, true⟩ := by
  refine ⟨rfl, ?_, rfl⟩
  cases labels with
  | nil => rfl
  | cons first rest =>
    simp only [fromLabelsMain]
    by_cases h2 : first.length < 2
    · rw [if_pos h2, if_pos h2]
    · rw [if_neg h2, if_neg h2]
      by_cases hcc : ctorCountBadFL ics first.length = true
      · rw [if_pos hcc, if_pos hcc]
      · rw [if_neg hcc, if_neg hcc]
        rw [fromLabelsGo_tok_irrel (first.length) tok tok2 (first :: rest) (.br [])
          (List.replicate first.length none)]

end ClaimC9

section ClaimC1
variable {β : Type} [LinearOrder β]

theorem lexLe_nil_left (b : List β) : lexLe ([] : List β) b = true := by
  rw [lexLe]

theorem lexLe_cons_cons (a b : β) (as bs : List β) :
    lexLe (a :: as) (b :: bs) =
      if a < b then true else if b < a then false else lexLe as bs := by
  rw [lexLe]

theorem lexLe_total (a b : List β) : lexLe a b = true ∨ lexLe b a = true := by
  induction a generalizing b with
  | nil => exact Or.inl (lexLe_nil_left b)
  | cons x as ih =>
    cases b with
    | nil => exact Or.inr (lexLe_nil_left _)
    | cons y bs =>
      rw [lexLe_cons_cons, lexLe_cons_cons]
      rcases lt_trichotomy x y with hxy | hxy | hxy
      · left
        rw [if_pos hxy]
      · subst hxy
        rw [if_neg (lt_irrefl x), if_neg (lt_irrefl x),
          if_neg (lt_irrefl x), if_neg (lt_irrefl x)]
        exact ih bs
      · right
        rw [if_pos hxy]

theorem lexLe_trans : ∀ {a b c : List β},
    lexLe a b = true → lexLe b c = true → lexLe a c = true := by
  intro a
  induction a with
  | nil =>
    intro b c _ _
    exact lexLe_nil_left c
  | cons x as ih =>
    intro b c hab hbc
    cases b with
    | nil =>
      rw [lexLe] at hab
      cases hab
    | cons y bs =>
      cases c with
      | nil =>
        rw [lexLe] at hbc
        cases hbc
      | cons z cs =>
        rw [lexLe_cons_cons] at hab hbc ⊢
        by_cases hxy : x < y
        · have hzy : ¬ z < y := by
            intro hzy
            rw [if_neg (asymm hzy), if_pos hzy] at hbc
            cases hbc
          have hxz : x < z := lt_of_lt_of_le hxy (not_lt.mp hzy)
          rw [if_pos hxz]
        · by_cases hyx : y < x
          · rw [if_neg hxy, if_pos hyx] at hab
            cases hab
          · have hxy2 : x = y := le_antisymm (not_lt.mp hyx) (not_lt.mp hxy)
            subst hxy2
            rw [if_neg (lt_irrefl x), if_neg (lt_irrefl x)] at hab
            by_cases hxz : x < z
            · rw [if_pos hxz]
            · by_cases hzx : z < x
              · rw [if_pos hzx] at hbc
                rw [if_neg hxz] at hbc
                cases hbc
              · rw [if_neg hxz, if_neg hzx] at hbc ⊢
                exact ih hab hbc

theorem lexLe_antisymm : ∀ {a b : List β},
    lexLe a b = true → lexLe b a = true → a = b := by
  intro a
  induction a with
  | nil =>
    intro b _ hba
    cases b with
    | nil => rfl
    | cons y bs =>
      rw [lexLe] at hba
      cases hba
  | cons x as ih =>
    intro b hab hba
    cases b with
    | nil =>
      rw [lexLe] at hab
      cases hab
    | cons y bs =>
      rw [lexLe_cons_cons] at hab hba
      by_cases hxy : x < y
      · rw [if_neg (asymm hxy), if_pos hxy] at hba
        cases hba
      · by_cases hyx : y < x
        · rw [if_pos hyx, if_neg hxy] at hab
          cases hab
        · have hxy2 : x = y := le_antisymm (not_lt.mp hyx) (not_lt.mp hxy)
          subst hxy2
          rw [if_neg hxy, if_neg hxy] at hab hba
          rw [ih hab hba]

/-- A list lexicographically between two lists with equal `m`-prefixes
shares that prefix. -/
theorem lexLe_squeeze : ∀ (m : Nat) (a b c : List β),
    lexLe a b = true → lexLe b c = true → a.take m = c.take m →
    b.take m = a.take m := by
  intro m
  induction m with
  | zero =>
    intro a b c _ _ _
    rw [List.take_zero, List.take_zero]
  | succ m ih =>
    intro a b c hab hbc hac
    cases a with
    | nil =>
      cases c with
      | nil =>
        cases b with
        | nil => rfl
        | cons y bs =>
          rw [lexLe] at hbc
          cases hbc
      | cons z cs =>
        rw [List.take_nil, List.take_succ_cons] at hac
        cases hac
    | cons x as =>
      cases b with
      | nil =>
        rw [lexLe] at hab
        cases hab
      | cons y bs =>
        cases c with
        | nil =>
          rw [lexLe] at hbc
          cases hbc
        | cons z cs =>
          rw [List.take_succ_cons, List.take_succ_cons] at hac
          have hxz : x = z := (List.cons.injEq .. ▸ hac).1
          have hac2 : as.take m = cs.take m := (List.cons.injEq .. ▸ hac).2
          subst hxz
          rw [lexLe_cons_cons] at hab hbc
          by_cases hxy : x < y
          · rw [if_neg (asymm hxy), if_pos hxy] at hbc
            cases hbc
          · by_cases hyx : y < x
            · rw [if_neg hxy, if_pos hyx] at hab
              cases hab
            · have hxy2 : x = y := le_antisymm (not_lt.mp hyx) (not_lt.mp hxy)
              subst hxy2
              rw [if_neg hxy, if_neg hxy] at hab hbc
              rw [List.take_succ_cons, List.take_succ_cons]
              rw [ih as bs cs hab hbc hac2]

/-- Rows sorted lexicographically (first depth primary) satisfy the
adjacency invariant at every non-leaf depth. -/
theorem sorted_lexLe_contigAll (D : Nat) (rows : List (List β))
    (hs : rows.Sorted (fun r s => lexLe r s = true)) : ContigAll D rows := by
  intro m hm h1
  intro k hk j hj i hi hik
  have hlen : (rows.map (List.take m)).length = rows.length := List.length_map ..
  have hkr : k < rows.length := by rw [hlen] at hk; exact hk
  have hjr : j < rows.length := by omega
  have hir : i < rows.length := by omega
  have hgi : (rows.map (List.take m))[i]? = some (rows[i].take m) := by
    rw [List.getElem?_map, List.getElem?_eq_getElem hir, Option.map_some']
  have hgj : (rows.map (List.take m))[j]? = some (rows[j].take m) := by
    rw [List.getElem?_map, List.getElem?_eq_getElem hjr, Option.map_some']
  have hgk : (rows.map (List.take m))[k]? = some (rows[k].take m) := by
    rw [List.getElem?_map, List.getElem?_eq_getElem hkr, Option.map_some']
  rw [hgi, hgk] at hik
  have htk : rows[i].take m = rows[k].take m := by
    injection hik
  have hij : lexLe rows[i] rows[j] = true :=
    List.pairwise_iff_getElem.mp hs i j hir hjr hi
  have hjk : lexLe rows[j] rows[k] = true :=
    List.pairwise_iff_getElem.mp hs j k hjr hkr hj
  rw [hgj, hgi]
  rw [lexLe_squeeze m rows[i] rows[j] rows[k] hij hjk htk]

/-- The adjacency invariant survives reversing the row order. -/
theorem contigAll_reverse (D : Nat) (rows : List (List β))
    (h : ContigAll D rows) : ContigAll D rows.reverse := by
  intro m hm h1
  have h2 := (h m hm h1).reverse
  rw [List.map_reverse]
  exact h2

theorem insOrd_perm (key : Nat → List β) (i : Nat) :
    ∀ l : List Nat, (insOrd key i l).Perm (i :: l) := by
  intro l
  induction l with
  | nil => exact List.Perm.refl _
  | cons j rest ih =>
    rw [insOrd]
    by_cases hj : lexLe (key j) (key i) = true
    · rw [if_pos hj]
      exact (ih.cons j).trans (List.Perm.swap i j rest)
    · rw [if_neg hj]

theorem insOrd_sorted (key : Nat → List β) (i : Nat) :
    ∀ l : List Nat, l.Sorted (fun a b => lexLe (key a) (key b) = true) →
      (insOrd key i l).Sorted (fun a b => lexLe (key a) (key b) = true) := by
  intro l
  induction l with
  | nil =>
    intro _
    simp [insOrd]
  | cons j rest ih =>
    intro hs
    rw [List.sorted_cons] at hs
    obtain ⟨hj, hrest⟩ := hs
    rw [insOrd]
    by_cases hji : lexLe (key j) (key i) = true
    · rw [if_pos hji]
      rw [List.sorted_cons]
      refine ⟨?_, ih hrest⟩
      intro x hx
      have hx2 : x ∈ i :: rest := (insOrd_perm key i rest).mem_iff.mp hx
      rcases List.mem_cons.mp hx2 with hx3 | hx3
      · subst hx3
        exact hji
      · exact hj x hx3
    · rw [if_neg hji]
      have hij : lexLe (key i) (key j) = true := by
        rcases lexLe_total (key i) (key j) with h2 | h2
        · exact h2
        · exact absurd h2 hji
      rw [List.sorted_cons]
      refine ⟨?_, List.sorted_cons.mpr ⟨hj, hrest⟩⟩
      intro x hx
      rcases List.mem_cons.mp hx with hx3 | hx3
      · subst hx3
        exact hij
      · exact lexLe_trans hij (hj x hx3)

theorem foldl_insOrd_perm (key : Nat → List β) :
    ∀ (l acc : List Nat),
      (l.foldl (fun a i => insOrd key i a) acc).Perm (acc ++ l) := by
  intro l
  induction l with
  | nil =>
    intro acc
    simp
  | cons x xs ih =>
    intro acc
    rw [List.foldl_cons]
    refine (ih (insOrd key x acc)).trans ?_
    refine ((insOrd_perm key x acc).append_right xs).trans ?_
    simpa using List.perm_middle.symm

theorem foldl_insOrd_sorted (key : Nat → List β) :
    ∀ (l acc : List Nat),
      acc.Sorted (fun a b => lexLe (key a) (key b) = true) →
      (l.foldl (fun a i => insOrd key i a) acc).Sorted
        (fun a b => lexLe (key a) (key b) = true) := by
  intro l
  induction l with
  | nil =>
    intro acc hs
    exact hs
  | cons x xs ih =>
    intro acc hs
    rw [List.foldl_cons]
    exact ih (insOrd key x acc) (insOrd_sorted key x acc hs)

theorem stableArgsort_perm (key : Nat → List β) (n : Nat) :
    (stableArgsort key n).Perm (List.range n) := by
  rw [stableArgsort]
  simpa using foldl_insOrd_perm key (List.range n) []

theorem stableArgsort_sorted (key : Nat → List β) (n : Nat) :
    (stableArgsort key n).Sorted (fun a b => lexLe (key a) (key b) = true) := by
  rw [stableArgsort]
  exact foldl_insOrd_sorted key (List.range n) [] (by simp)

theorem getD_lt {α : Type} (l : List α) (j : Nat) (d : α) (hj : j < l.length) :
    l.getD j d = l[j] := by
  rw [List.getD_eq_getElem?_getD, List.getElem?_eq_getElem hj, Option.getD_some]

theorem range_map_getD {α : Type} (l : List α) (d : α) :
    (List.range l.length).map (fun i => l.getD i d) = l := by
  apply List.ext_getElem
  · simp
  · intro i h1 h2
    rw [List.getElem_map, List.getElem_range]
    exact getD_lt l i d h2

/-- The argsort of `sort` (np.lexsort over the columns, last depth
first in the key sequence, hence FIRST depth primary) extracts exactly
the stable first-depth-primary lexicographic sort of the rows. -/
theorem npLexsort_rows [Inhabited β] (D : Nat) (v : List (List β))
    (hvlen : ∀ r ∈ v, r.length = D) (hD : 1 ≤ D) :
    (npLexsort ((List.range D).reverse.map
        (fun i => v.map (fun r => r.getD i default)))).map (fun i => v.getD i []) =
      List.insertionSort (fun r s => lexLe r s = true) v := by
  set keys := (List.range D).reverse.map
    (fun i => v.map (fun r => r.getD i default)) with hkeys
  set key : Nat → List β := fun i => keys.reverse.map (fun col => col.getD i default)
    with hkeydef
  have hD1 : D - 1 + 1 = D := by omega
  have hrev : (List.range D).reverse = (D - 1) :: (List.range (D - 1)).reverse := by
    conv_lhs => rw [← hD1, List.range_succ]
    rw [List.reverse_append]
    rfl
  have hkeysrev : keys.reverse = (List.range D).map
      (fun i => v.map (fun r => r.getD i default)) := by
    rw [hkeys, List.map_reverse, List.reverse_reverse]
  have hn : (keys.headD []).length = v.length := by
    rw [hkeys, hrev, List.map_cons, List.headD_cons, List.length_map]
  have hkeyeq : ∀ j, j ∈ List.range v.length → key j = v.getD j [] := by
    intro j hj
    have hjv : j < v.length := List.mem_range.mp hj
    have hkj : key j = List.map (fun col => col.getD j default) keys.reverse := rfl
    rw [hkj, hkeysrev, List.map_map]
    have hstep : ((List.range D).map ((fun col => col.getD j default) ∘
        (fun i => v.map (fun r => r.getD i default)))) =
        (List.range D).map (fun i => (v.getD j []).getD i default) := by
      apply List.map_congr_left
      intro i _
      show (v.map (fun r => r.getD i default)).getD j default =
        (v.getD j []).getD i default
      have hjm : j < (v.map (fun r => r.getD i default)).length := by
        rw [List.length_map]
        exact hjv
      rw [getD_lt _ j _ hjm, List.getElem_map, getD_lt v j [] hjv]
    rw [hstep]
    have hlenj : (v.getD j []).length = D := by
      rw [getD_lt v j [] hjv]
      exact hvlen _ (List.getElem_mem ..)
    conv_lhs => rw [← hlenj]
    exact range_map_getD _ default
  have hnp : npLexsort keys = stableArgsort key v.length := by
    rw [npLexsort, hn]
  letI : IsTotal (List β) (fun r s => lexLe r s = true) := ⟨fun a b => lexLe_total a b⟩
  letI : IsTrans (List β) (fun r s => lexLe r s = true) :=
    ⟨fun a b c hab hbc => lexLe_trans hab hbc⟩
  letI : IsAntisymm (List β) (fun r s => lexLe r s = true) :=
    ⟨fun a b hab hba => lexLe_antisymm hab hba⟩
  have hperm_ins : (List.insertionSort (fun r s => lexLe r s = true) v).Perm v :=
    List.perm_insertionSort _ v
  have hsort_ins : (List.insertionSort (fun r s => lexLe r s = true) v).Sorted
      (fun r s => lexLe r s = true) := List.sorted_insertionSort _ v
  have hpermA : (stableArgsort key v.length).Perm (List.range v.length) :=
    stableArgsort_perm key v.length
  have hsortA := stableArgsort_sorted key v.length
  have hrows_perm : ((stableArgsort key v.length).map (fun i => v.getD i [])).Perm v := by
    have h1 := hpermA.map (fun i => v.getD i [])
    rw [range_map_getD v []] at h1
    exact h1
  have hrows_sorted : ((stableArgsort key v.length).map (fun i => v.getD i [])).Sorted
      (fun r s => lexLe r s = true) := by
    have hs2 := List.Pairwise.and_mem.mp hsortA
    refine hs2.map _ ?_
    intro a b hab
    obtain ⟨ha, hb, hab2⟩ := hab
    show lexLe (v.getD a []) (v.getD b []) = true
    rw [← hkeyeq a (hpermA.mem_iff.mp ha), ← hkeyeq b (hpermA.mem_iff.mp hb)]
    exact hab2
  rw [hnp]
  exact List.eq_of_perm_of_sorted (hrows_perm.trans hperm_ins.symm)
    hrows_sorted hsort_ins

/-- C1 counterexample: on rows `[[0,1],[1,0]]` an ordering with the
LAST depth as primary key would have to put `[1,0]` first (its leaf
label 0 sorts before 1), but `sort(ascending=True)` leaves the order
unchanged: np.lexsort is handed the columns from the last depth back to
the first and takes the LAST key of that sequence — the FIRST depth —
as primary. -/
theorem claim_C1_counterexample :
    sortH (⟨.node [(0, .leaf [1]), (1, .leaf [0])], none, true⟩ : Hier Nat) true =
      .ok ⟨.node [(0, .leaf [1]), (1, .leaf [0])], some ⟨2, [[0, 1], [1, 0]]⟩, false⟩ ∧
    ([[0, 1], [1, 0]] : List (List Nat)) ≠ [[1, 0], [0, 1]] :=
  ⟨rfl, by decide⟩

/-- C1 (amended): `sort(ascending=True)` returns a new hierarchy owning
as valid cache the rows sorted lexicographically with the FIRST depth
as primary key and later depths breaking ties (the stable insertion
sort by tuple order; equal rows cannot occur in a valid hierarchy, so
stability is automatic), and `sort(ascending=False)` owns exactly the
reverse of that order. -/
theorem claim_C1 [Inhabited β] (h : Hier β) (D : Nat)
    (hwf : WF D h.levels) (hc : CacheOK h) (hD : 2 ≤ D) :
    ∃ lvl lvl2,
      sortH h true = .ok ⟨lvl, some ⟨D,
        List.insertionSort (fun r s => lexLe r s = true) h.levels.rows⟩, false⟩ ∧
      sortH h false = .ok ⟨lvl2, some ⟨D,
        (List.insertionSort (fun r s => lexLe r s = true) h.levels.rows).reverse⟩,
        false⟩ := by
  have hbu : (ensure h).blocks.getD ⟨0, []⟩ = h.levels.toBlocks := blocksOf_cacheOK hc
  have hhe : h.levels.height = D := hwf.height_eq
  have hvlen := hwf.rows_length
  have hvnd := hwf.rows_nodup
  have hcore := npLexsort_rows D h.levels.rows hvlen (by omega)
  letI : IsTotal (List β) (fun r s => lexLe r s = true) := ⟨fun a b => lexLe_total a b⟩
  letI : IsTrans (List β) (fun r s => lexLe r s = true) :=
    ⟨fun a b c hab hbc => lexLe_trans hab hbc⟩
  have hperm_ins := List.perm_insertionSort (fun r s => lexLe r s = true) h.levels.rows
  have hsort_ins := List.sorted_insertionSort (fun r s => lexLe r s = true) h.levels.rows
  set srt := List.insertionSort (fun r s => lexLe r s = true) h.levels.rows with hsrtdef
  have hcontig : ContigAll D srt := sorted_lexLe_contigAll D srt hsort_ins
  have hsrt_len : ∀ r ∈ srt, r.length = D := fun r hr => hvlen r (hperm_ins.mem_iff.mp hr)
  have hsrt_nd : srt.Nodup := hperm_ins.nodup_iff.mpr hvnd
  obtain ⟨hokA, _⟩ := fromTypeBlocks_spec (⟨D, srt⟩ : Blocks β) (List.replicate D ())
    (by simpa using hD) (by simp) hsrt_len hsrt_nd
  obtain ⟨lvlA, hlvlA⟩ := hokA hcontig
  obtain ⟨hokB, _⟩ := fromTypeBlocks_spec (⟨D, srt.reverse⟩ : Blocks β)
    (List.replicate D ()) (by simpa using hD) (by simp)
    (fun r hr => hsrt_len r (List.mem_reverse.mp hr))
    (by rw [List.nodup_reverse]; exact hsrt_nd)
  obtain ⟨lvlB, hlvlB⟩ := hokB (contigAll_reverse D srt hcontig)
  refine ⟨lvlA, lvlB, ?_, ?_⟩
  · simp only [sortH, hbu, Level.toBlocks, ensure_levels, Level.indexTypes, hhe]
    rw [if_pos trivial, hcore]
    exact hlvlA
  · simp only [sortH, hbu, Level.toBlocks, ensure_levels, Level.indexTypes, hhe]
    rw [if_neg (by simp), List.map_reverse, hcore]
    exact hlvlB

theorem claim_C1_witness :
    ∃ lvl lvl2,
      sortH (⟨.node [(0, .leaf [1]), (1, .leaf [2, 3])], none, true⟩ : Hier Nat) true =
        .ok ⟨lvl, some ⟨2, List.insertionSort (fun r s => lexLe r s = true)
          (⟨.node [(0, .leaf [1]), (1, .leaf [2, 3])], none,
            true⟩ : Hier Nat).levels.rows⟩, false⟩ ∧
      sortH (⟨.node [(0, .leaf [1]), (1, .leaf [2, 3])], none, true⟩ : Hier Nat) false =
        .ok ⟨lvl2, some ⟨2, (List.insertionSort (fun r s => lexLe r s = true)
          (⟨.node [(0, .leaf [1]), (1, .leaf [2, 3])], none,
            true⟩ : Hier Nat).levels.rows).reverse⟩, false⟩ :=
  claim_C1 ⟨.node [(0, .leaf [1]), (1, .leaf [2, 3])], none, true⟩ 2
    (by
      refine WF.node 1 _ (by simp) (by decide) ?_
      intro p hp
      simp only [List.mem_cons, List.not_mem_nil, or_false] at hp
      rcases hp with hp | hp
      · subst hp
        exact WF.leaf [1] (by simp) (by decide)
      · subst hp
        exact WF.leaf [2, 3] (by simp) (by decide))
    (Or.inl rfl) (by omega)

end ClaimC1

end StaticFrame
